import Mathlib

/-!
Shallow embedding of the GMM mod-manager core (src/src-tauri/src/main.rs):
the name cleaner, the hint-matcher cascade, the metadata deduction pipeline,
the enable-state model, the directory-scan reconciliation loop and the
candidate-mod-folder predicate, together with theorems settling claims
C1 to C10.

Modelling conventions:
* Rust `String`/`&str` values are Lean `String`s; character-level work uses
  `List Char` (`String.data`).
* Rust `to_lowercase`/`(?i)` case folding is modelled on the ASCII fragment
  (`Char.toLower`, which maps only A-Z); every concrete input considered in
  the theorems below is ASCII, where the model is exact.
* The regex crate has leftmost-first match semantics: `replace_all` scans for
  the leftmost position where some alternative matches and there picks the
  first alternative in source order.  The scanners below implement exactly
  that for the two fixed regexes of the program.
* `HashMap` is modelled as an association list where an insert removes any
  previous binding of the key (last insert wins on lookup, as in `HashMap`);
  iteration order of a `HashMap` is unspecified in Rust, the model iterates
  the bindings in a fixed order.
* Filesystem state is passed explicitly: a directory listing is a list of
  entries, paths are component lists or slash-separated strings matching the
  program's `PathBuf` usage.
-/

namespace GMM

/-- Unicode White_Space code points: the set matched by the Rust regex class
for whitespace and trimmed by `str::trim` (`char::is_whitespace`). -/
def isWS (c : Char) : Bool :=
  (0x09 ≤ c.toNat && c.toNat ≤ 0x0D) || c.toNat = 0x20 || c.toNat = 0x85 ||
  c.toNat = 0xA0 || c.toNat = 0x1680 ||
  (0x2000 ≤ c.toNat && c.toNat ≤ 0x200A) || c.toNat = 0x2028 ||
  c.toNat = 0x2029 || c.toNat = 0x202F || c.toNat = 0x205F || c.toNat = 0x3000

/-- Character class of the leading alternative of NAME_CLEANUP_REGEX
(main.rs line 199): underscore, hyphen, dot or whitespace. -/
def isSepChar (c : Char) : Bool :=
  c = '_' || c = '-' || c = '.' || isWS c

/-- Index of the last occurrence of `c` in `cs`. -/
def lastIdxOf (c : Char) : List Char → Option Nat
  | [] => none
  | a :: rest =>
    match lastIdxOf c rest with
    | some k => some (k + 1)
    | none => if a = c then some 0 else none

/-- Case-insensitive (ASCII) literal-prefix match: returns the remainder of
`cs` after the pattern `pat`, or `none` when `pat` is not a prefix. -/
def dropPrefixCI : List Char → List Char → Option (List Char)
  | [], cs => some cs
  | _ :: _, [] => none
  | p :: ps, c :: cs =>
    if p.toLower = c.toLower then dropPrefixCI ps cs else none

/-- One fuelled left-to-right pass of
`NAME_CLEANUP_REGEX.replace_all(input, " ")` (main.rs lines 199, 557) for the
regex
`(?i)[_\-.\s]+|(_v\d+(\.\d+)*)|(_af)|(_nsfw)|(\(disabled\))|(\(.*\))|(\[.*\])|(^DISABLED_)`.
Leftmost-first semantics: at each position the alternatives are tried in
source order.  Every alternative beginning with an underscore is shadowed by
the separator class, so the reachable alternatives are the separator run, the
two paren forms at an opening paren (literal `(disabled)` first, then the
greedy group, whose dot does not cross a newline), the greedy bracket group at
an opening bracket, and the anchored `DISABLED_` prefix at the very start.
Each match is replaced by a single space.  `fuel` bounds the recursion; it is
adequate whenever `cs.length ≤ fuel`. -/
def cleanupFuel : Nat → Bool → List Char → List Char
  | 0, _, cs => cs
  | _ + 1, _, [] => []
  | fuel + 1, atStart, c :: rest =>
    if isSepChar c then
      ' ' :: cleanupFuel fuel false (rest.dropWhile isSepChar)
    else if c = '(' then
      match dropPrefixCI "disabled)".data rest with
      | some rest2 => ' ' :: cleanupFuel fuel false rest2
      | none =>
        match lastIdxOf ')' (rest.takeWhile (fun a => a ≠ '\n')) with
        | some k => ' ' :: cleanupFuel fuel false (rest.drop (k + 1))
        | none => c :: cleanupFuel fuel false rest
    else if c = '[' then
      match lastIdxOf ']' (rest.takeWhile (fun a => a ≠ '\n')) with
      | some k => ' ' :: cleanupFuel fuel false (rest.drop (k + 1))
      | none => c :: cleanupFuel fuel false rest
    else if atStart then
      match dropPrefixCI "DISABLED_".data (c :: rest) with
      | some rest2 => ' ' :: cleanupFuel fuel false rest2
      | none => c :: cleanupFuel fuel false rest
    else c :: cleanupFuel fuel false rest

/-- Full first pass of `clean_and_extract_name`: the NAME_CLEANUP_REGEX
replacement over the whole input. -/
def nameCleanupAll (cs : List Char) : List Char :=
  cleanupFuel cs.length true cs

/-- Leading-whitespace trim (Rust `str::trim_start`). -/
def trimL (cs : List Char) : List Char := cs.dropWhile isWS

/-- Trailing-whitespace trim (Rust `str::trim_end`). -/
def trimR (cs : List Char) : List Char := (cs.reverse.dropWhile isWS).reverse

/-- Rust `str::trim`. -/
def rustTrim (cs : List Char) : List Char := trimR (trimL cs)

/-- ASCII alphabetic characters, the letter class of
POTENTIAL_NAME_PART_REGEX. -/
def isAsciiAlpha (c : Char) : Bool :=
  (65 ≤ c.toNat && c.toNat ≤ 90) || (97 ≤ c.toNat && c.toNat ≤ 122)

/-- Character class of POTENTIAL_NAME_PART_REGEX (main.rs line 200):
ASCII alphabetic or whitespace. -/
def isNamePartChar (c : Char) : Bool := isAsciiAlpha c || isWS c

/-- Character-list core of `clean_and_extract_name` (main.rs lines 555-566):
regex cleanup pass, aggressive trim, then the leading `[a-zA-Z\s]+` run
(trimmed) when it exists, else the trimmed remainder, lowercased. -/
def cleanList (cs : List Char) : List Char :=
  if (rustTrim (nameCleanupAll cs)).takeWhile isNamePartChar = [] then
    (rustTrim (nameCleanupAll cs)).map Char.toLower
  else
    (rustTrim ((rustTrim (nameCleanupAll cs)).takeWhile isNamePartChar)).map
      Char.toLower

/-- Embedding of `clean_and_extract_name` (main.rs lines 555-566). -/
def clean_and_extract_name (s : String) : String := ⟨cleanList s.data⟩

/-- Rust `str::to_lowercase`, modelled on the ASCII fragment. -/
def rustLower (s : String) : String := ⟨s.data.map Char.toLower⟩

/-- Rust `str::len` (UTF-8 byte length) of a character list. -/
def byteLenL (cs : List Char) : Nat := (cs.map Char.utf8Size).sum

/-- Rust `str::len` (UTF-8 byte length). -/
def byteLen (s : String) : Nat := byteLenL s.data

/-- Rust `str::contains` on character lists: substring containment. -/
def containsSub (needle : List Char) : List Char → Bool
  | [] => needle.isPrefixOf []
  | c :: rest => needle.isPrefixOf (c :: rest) || containsSub needle rest

/-- Rust `split_whitespace`: maximal non-whitespace runs, empties dropped.
`acc` holds the characters of the current word in reverse. -/
def wordsAux (acc : List Char) : List Char → List (List Char)
  | [] => if acc = [] then [] else [acc.reverse]
  | c :: rest =>
    if isWS c then
      if acc = [] then wordsAux [] rest else acc.reverse :: wordsAux [] rest
    else wordsAux (c :: acc) rest

/-- Word list of a character list (Rust `split_whitespace().collect()`). -/
def words (cs : List Char) : List (List Char) := wordsAux [] cs

/-- HashMap insert modelled on association lists: the new binding shadows and
removes any previous binding of the same key, so `List.lookup` sees the most
recent insert, as a Rust `HashMap` does. -/
def hmInsert [BEq κ] (k : κ) (v : α) (m : List (κ × α)) : List (κ × α) :=
  (k, v) :: m.filter (fun kv => !(kv.1 == k))

/-- Embedding of the `DeductionMaps` struct (main.rs lines 213-222). -/
structure DeductionMaps where
  category_slug_to_id : List (String × Int)
  entity_slug_to_id : List (String × Int)
  lowercase_category_name_to_slug : List (String × String)
  lowercase_entity_name_to_slug : List (String × String)
  entity_slug_to_category_slug : List (String × String)
  lowercase_entity_firstname_to_slug : List (String × String)
  lowercase_entity_first_two_words_to_slug : List (String × String)

/-- One `categories` table row as consumed by `fetch_deduction_maps`. -/
structure CategoryRow where
  slug : String
  id : Int
  name : String
deriving DecidableEq

/-- One `entities` table row as consumed by `fetch_deduction_maps`. -/
structure EntityRow where
  slug : String
  id : Int
  name : String
  category_id : Int
deriving DecidableEq

/-- Accumulator of the category loop of `fetch_deduction_maps`
(main.rs lines 743-762). -/
structure CatAcc where
  slugToId : List (String × Int)
  lowerNameToSlug : List (String × String)
  idToSlug : List (Int × String)

/-- Category loop of `fetch_deduction_maps` (main.rs lines 752-761). -/
def catLoop (acc : CatAcc) : List CategoryRow → CatAcc
  | [] => acc
  | r :: rest =>
    catLoop
      ⟨hmInsert r.slug r.id acc.slugToId,
       hmInsert (rustLower r.name) r.slug acc.lowerNameToSlug,
       hmInsert r.id r.slug acc.idToSlug⟩ rest

/-- Accumulator of the entity loop of `fetch_deduction_maps`
(main.rs lines 766-808). -/
structure EntAcc where
  slugToId : List (String × Int)
  lowerNameToSlug : List (String × String)
  slugToCatSlug : List (String × String)
  firstnameToSlug : List (String × String)
  firstTwoToSlug : List (String × String)

/-- One iteration of the entity loop of `fetch_deduction_maps`
(main.rs lines 779-808) for the row `r`: the slug and lowercase-name maps are
always extended; the entity-to-category map when the owning category exists;
the first-word and first-two-words maps only when distinct from the full
lowercase name.  Each map is updated independently, exactly as the source's
sequence of inserts does. -/
def entStep (idToSlug : List (Int × String)) (acc : EntAcc) (r : EntityRow) :
    EntAcc :=
  { slugToId := hmInsert r.slug r.id acc.slugToId,
    lowerNameToSlug := hmInsert (rustLower r.name) r.slug acc.lowerNameToSlug,
    slugToCatSlug :=
      match idToSlug.lookup r.category_id with
      | some catSlug => hmInsert r.slug catSlug acc.slugToCatSlug
      | none => acc.slugToCatSlug,
    firstnameToSlug :=
      match (words (rustLower r.name).data).head? with
      | some w =>
        if (⟨w⟩ : String) ≠ rustLower r.name then
          hmInsert (⟨w⟩ : String) r.slug acc.firstnameToSlug
        else acc.firstnameToSlug
      | none => acc.firstnameToSlug,
    firstTwoToSlug :=
      if 2 ≤ (words (rustLower r.name).data).length then
        if (⟨(words (rustLower r.name).data).getD 0 [] ++
              ' ' :: (words (rustLower r.name).data).getD 1 []⟩ : String) ≠
            rustLower r.name then
          hmInsert
            (⟨(words (rustLower r.name).data).getD 0 [] ++
              ' ' :: (words (rustLower r.name).data).getD 1 []⟩ : String)
            r.slug acc.firstTwoToSlug
        else acc.firstTwoToSlug
      else acc.firstTwoToSlug }

/-- Entity loop of `fetch_deduction_maps` (main.rs lines 779-808). -/
def entLoop (idToSlug : List (Int × String)) (acc : EntAcc) :
    List EntityRow → EntAcc
  | [] => acc
  | r :: rest => entLoop idToSlug (entStep idToSlug acc r) rest

/-- Embedding of `fetch_deduction_maps` (main.rs lines 742-821), taking the
category and entity tables as row lists in iteration order. -/
def fetch_deduction_maps (cats : List CategoryRow) (ents : List EntityRow) :
    DeductionMaps :=
  let c := catLoop ⟨[], [], []⟩ cats
  let e := entLoop c.idToSlug ⟨[], [], [], [], []⟩ ents
  ⟨c.slugToId, e.slugToId, c.lowerNameToSlug, e.lowerNameToSlug,
   e.slugToCatSlug, e.firstnameToSlug, e.firstTwoToSlug⟩

/-- Priority 1 of `find_entity_slug_from_hint` (main.rs lines 579-582):
the raw hint is a known entity slug (case-sensitive). -/
def strat1 (hint : String) (maps : DeductionMaps) : Option String :=
  if (maps.entity_slug_to_id.lookup hint).isSome then some hint else none

/-- Priority 2 (main.rs lines 584-587): lowercased raw hint equals a known
full lowercase entity name. -/
def strat2 (lowerHint : String) (maps : DeductionMaps) : Option String :=
  maps.lowercase_entity_name_to_slug.lookup lowerHint

/-- Priority 3 (main.rs lines 589-592): cleaned hint equals a full name. -/
def strat3 (cleaned : String) (maps : DeductionMaps) : Option String :=
  maps.lowercase_entity_name_to_slug.lookup cleaned

/-- Priority 4 (main.rs lines 594-597): cleaned hint equals a first-two-words
key. -/
def strat4 (cleaned : String) (maps : DeductionMaps) : Option String :=
  maps.lowercase_entity_first_two_words_to_slug.lookup cleaned

/-- Priority 5 (main.rs lines 599-602): cleaned hint equals a first-name
key. -/
def strat5 (cleaned : String) (maps : DeductionMaps) : Option String :=
  maps.lowercase_entity_firstname_to_slug.lookup cleaned

/-- Priority 6 (main.rs lines 605-612): first whitespace token of the cleaned
hint, of byte length above 1, equals a first-name key. -/
def strat6 (cleaned : String) (maps : DeductionMaps) : Option String :=
  match (words cleaned.data).head? with
  | none => none
  | some w =>
    if 1 < byteLenL w then
      maps.lowercase_entity_firstname_to_slug.lookup (⟨w⟩ : String)
    else none

/-- Priority 7 (main.rs lines 615-621): cleaned hint starts with a known full
name of byte length above 2. -/
def strat7 (cleaned : String) (maps : DeductionMaps) : Option String :=
  (maps.lowercase_entity_name_to_slug.find?
    (fun kv => kv.1.data.isPrefixOf cleaned.data && 2 < byteLen kv.1)).map (·.2)

/-- Priority 8 (main.rs lines 623-628): cleaned hint starts with a known
first-two-words key. -/
def strat8 (cleaned : String) (maps : DeductionMaps) : Option String :=
  (maps.lowercase_entity_first_two_words_to_slug.find?
    (fun kv => kv.1.data.isPrefixOf cleaned.data)).map (·.2)

/-- Priority 9 (main.rs lines 630-635): cleaned hint starts with a known
first-name key of byte length above 1. -/
def strat9 (cleaned : String) (maps : DeductionMaps) : Option String :=
  (maps.lowercase_entity_firstname_to_slug.find?
    (fun kv => kv.1.data.isPrefixOf cleaned.data && 1 < byteLen kv.1)).map (·.2)

/-- Priority 11 (main.rs lines 648-655): a cleaned hint of byte length above 3
contains a known full name. -/
def strat11 (cleaned : String) (maps : DeductionMaps) : Option String :=
  if 3 < byteLen cleaned then
    (maps.lowercase_entity_name_to_slug.find?
      (fun kv => containsSub kv.1.data cleaned.data)).map (·.2)
  else none

/-- Priority 12 (main.rs lines 657-664): a cleaned hint of byte length above 3
contains a known first-two-words key. -/
def strat12 (cleaned : String) (maps : DeductionMaps) : Option String :=
  if 3 < byteLen cleaned then
    (maps.lowercase_entity_first_two_words_to_slug.find?
      (fun kv => containsSub kv.1.data cleaned.data)).map (·.2)
  else none

/-- Priority 13 (main.rs lines 666-673): a cleaned hint of byte length above 2
contains a known first-name key. -/
def strat13 (cleaned : String) (maps : DeductionMaps) : Option String :=
  if 2 < byteLen cleaned then
    (maps.lowercase_entity_firstname_to_slug.find?
      (fun kv => containsSub kv.1.data cleaned.data)).map (·.2)
  else none

/-- First defined value of a list of options (the first strategy in the
cascade that succeeds). -/
def firstSome : List (Option α) → Option α
  | [] => none
  | some a :: _ => some a
  | none :: rest => firstSome rest

/-- Embedding of `find_entity_slug_from_hint` (main.rs lines 569-677): the
ordered cascade of the thirteen strategies (priority 10 is commented out in
the source), after the empty-hint guard. -/
def find_entity_slug_from_hint (hint : String) (maps : DeductionMaps) :
    Option String :=
  if hint.isEmpty then none
  else
    let cleaned := clean_and_extract_name hint
    let lower := rustLower hint
    firstSome
      [strat1 hint maps, strat2 lower maps, strat3 cleaned maps,
       strat4 cleaned maps, strat5 cleaned maps, strat6 cleaned maps,
       strat7 cleaned maps, strat8 cleaned maps, strat9 cleaned maps,
       strat11 cleaned maps, strat12 cleaned maps, strat13 cleaned maps]

/-- Taxonomy of the C4 scenario: one category and the entity named
Raiden Shogun. -/
def raidenMaps : DeductionMaps :=
  fetch_deduction_maps [⟨"characters", 10, "Characters"⟩]
    [⟨"raiden-shogun", 1, "Raiden Shogun", 10⟩]

/-- Rust `str::trim` on `String`. -/
def rustTrimStr (s : String) : String := ⟨rustTrim s.data⟩

/-- Rust `eq_ignore_ascii_case`. -/
def eqIgnoreAsciiCase (a b : String) : Bool :=
  a.data.map Char.toLower == b.data.map Char.toLower

/-- Rust `Path::extension` on a file name: the part after the last dot,
none when there is no dot or the only dot is leading. -/
def rustExtension (name : String) : Option String :=
  match lastIdxOf '.' name.data with
  | none => none
  | some 0 => none
  | some k => some ⟨name.data.drop (k + 1)⟩

/-- Rust `Path::file_stem` on a file name: the part before the last dot,
or the whole name when there is no dot or the only dot is leading. -/
def rustFileStem (name : String) : String :=
  match lastIdxOf '.' name.data with
  | none => name
  | some 0 => name
  | some k => ⟨name.data.take k⟩

/-- Parsed content of one INI file: ordered sections of key/value pairs
(as produced by `Ini::load_from_str`). -/
structure IniData where
  sections : List (String × List (String × String))
deriving DecidableEq

/-- One depth-1 directory entry of a mod folder as seen by the WalkDir loops:
its file name, whether it is a regular file, and — when it is an INI file —
the parse of its content (`none` models an unreadable or unparsable file). -/
structure FsFile where
  name : String
  isFile : Bool
  ini : Option IniData := none
deriving DecidableEq

/-- The fixed candidate list of `find_preview_image` (main.rs line 1195). -/
def previewNames : List String :=
  ["preview.png", "preview.jpg", "icon.png", "icon.jpg", "thumbnail.png", "thumbnail.jpg"]

/-- Embedding of `find_preview_image` (main.rs lines 1194-1208): the first
depth-1 file whose lowercased name is one of the fixed candidates.  A
non-directory input has an empty listing and yields `none`, as in the
source. -/
def find_preview_image (files : List FsFile) : Option String :=
  (files.find? (fun f => f.isFile && previewNames.contains (rustLower f.name))).map (·.name)

/-- File test of the first-INI search in `deduce_mod_info_v2`
(main.rs lines 878-882): a regular file whose extension equals `ini`
ignoring ASCII case. -/
def isIniFile (f : FsFile) : Bool :=
  f.isFile &&
    (match rustExtension f.name with
     | some e => eqIgnoreAsciiCase e "ini"
     | none => false)

/-- Embedding of the `DeducedInfo` struct (main.rs lines 203-211). -/
structure DeducedInfo where
  entity_slug : String
  mod_name : String
  mod_type_tag : Option String
  author : Option String
  description : Option String
  image_filename : Option String
deriving DecidableEq

/-- OTHER_ENTITY_SUFFIX constant (main.rs line 98). -/
def OTHER_ENTITY_SUFFIX : String := "-other"

/-- DISABLED_PREFIX constant (main.rs line 101). -/
def DISABLED_PREFIX : String := "DISABLED_"

/-- Section names recognized by the INI scan (main.rs line 888). -/
def iniSectionNames : List String := ["Mod", "Settings", "Info", "General"]

/-- Fields the INI scan of `deduce_mod_info_v2` extracts
(main.rs lines 888-898); `none` means the key was never seen. -/
structure IniExtract where
  name : Option String := none
  author : Option String := none
  description : Option String := none
  target : Option String := none
  typ : Option String := none
deriving DecidableEq

/-- Embedding of the section loop of `deduce_mod_info_v2`
(main.rs lines 888-898): for each of the four recognized sections in order,
each recognized key (with its fallback names) overwrites the previously
extracted value when present; all extracted values are trimmed. -/
def extractIni (ini : IniData) : IniExtract :=
  iniSectionNames.foldl
    (fun st sname =>
      match ini.sections.lookup sname with
      | none => st
      | some sec =>
        { name :=
            match (sec.lookup "Name").or (sec.lookup "ModName") with
            | some v => some (rustTrimStr v)
            | none => st.name,
          author :=
            match sec.lookup "Author" with
            | some v => some (rustTrimStr v)
            | none => st.author,
          description :=
            match sec.lookup "Description" with
            | some v => some (rustTrimStr v)
            | none => st.description,
          target :=
            match ((sec.lookup "Target").or (sec.lookup "Entity")).or
                (sec.lookup "Character") with
            | some v => some (rustTrimStr v)
            | none => st.target,
          typ :=
            match (sec.lookup "Type").or (sec.lookup "Category") with
            | some v => some (rustTrimStr v)
            | none => st.typ })
    {}

/-- INI extraction step of `deduce_mod_info_v2` (main.rs lines 876-908): the
first depth-1 INI file is read and parsed; on read or parse failure nothing
is extracted. -/
def deduceIniExtract (files : List FsFile) : IniExtract :=
  match files.find? isIniFile with
  | some f =>
    match f.ini with
    | some ini => extractIni ini
    | none => {}
  | none => {}

/-- Rust `Path::parent` on a component list. -/
def pathParent (p : List String) : Option (List String) :=
  if p = [] then none else some p.dropLast

/-- Rust `Path::file_name` on a component list. -/
def pathFileName (p : List String) : Option String := p.getLast?

/-- Rust `Path::strip_prefix` on component lists. -/
def stripPrefComps (base p : List String) : Option (List String) :=
  if base.isPrefixOf p then some (p.drop base.length) else none

/-- Parent-folder walk for an entity match (main.rs lines 858-873): starting
at the mod folder's parent, stop when reaching the mods root or its immediate
child, otherwise match each folder name through the hint matcher.  `fuel`
bounds the walk; the path length is adequate. -/
def parentEntityWalkFuel (maps : DeductionMaps) (base : List String) :
    Nat → Option (List String) → Option String
  | 0, _ => none
  | _ + 1, none => none
  | fuel + 1, some path =>
    if path = base ∨ pathParent path = some base then none
    else
      match pathFileName path with
      | some fname =>
        match find_entity_slug_from_hint fname maps with
        | some slug => some slug
        | none => parentEntityWalkFuel maps base fuel (pathParent path)
      | none => parentEntityWalkFuel maps base fuel (pathParent path)

/-- Parent-folder walk for a category match (fallback priority 1,
main.rs lines 972-994): exact category slug first, then lowercase category
name, walking up with the same stopping rule as the entity walk. -/
def parentCategoryWalkFuel (maps : DeductionMaps) (base : List String) :
    Nat → Option (List String) → Option String
  | 0, _ => none
  | _ + 1, none => none
  | fuel + 1, some path =>
    if path = base ∨ pathParent path = some base then none
    else
      match pathFileName path with
      | some fname =>
        if (maps.category_slug_to_id.lookup fname).isSome then some fname
        else
          match maps.lowercase_category_name_to_slug.lookup (rustLower fname) with
          | some slug => some slug
          | none => parentCategoryWalkFuel maps base fuel (pathParent path)
      | none => parentCategoryWalkFuel maps base fuel (pathParent path)

/-- Category match of the INI type hint (fallback priority 2,
main.rs lines 996-1035): exact slug, exact lowercase name, then
name-starts-with-hint, then name-contains-hint (hint byte length above 2). -/
def categoryFromTypeHint (typeHint : String) (maps : DeductionMaps) :
    Option String :=
  let lower := rustLower typeHint
  if (maps.category_slug_to_id.lookup typeHint).isSome then some typeHint
  else
    match maps.lowercase_category_name_to_slug.lookup lower with
    | some slug => some slug
    | none =>
      match (maps.lowercase_category_name_to_slug.find?
          (fun kv => lower.data.isPrefixOf kv.1.data)).map (·.2) with
      | some slug => some slug
      | none =>
        (maps.lowercase_category_name_to_slug.find?
          (fun kv => 2 < byteLen lower && containsSub lower.data kv.1.data)).map (·.2)

/-- Category match of the top-level folder relative to the mods root
(fallback priority 3, main.rs lines 1037-1089): exact slug, exact lowercase
name, mutual-prefix fuzzy match on slugs, mutual-prefix fuzzy match on names,
then name-contains (top-folder byte length above 2). -/
def categoryFromTopLevel (modFolderPath baseModsPath : List String)
    (maps : DeductionMaps) : Option String :=
  match stripPrefComps baseModsPath modFolderPath with
  | none => none
  | some rel =>
    match rel.head? with
    | none => none
    | some top =>
      let lowerTop := rustLower top
      if (maps.category_slug_to_id.lookup top).isSome then some top
      else
        match maps.lowercase_category_name_to_slug.lookup lowerTop with
        | some slug => some slug
        | none =>
          match (maps.category_slug_to_id.find?
              (fun kv => lowerTop.data.isPrefixOf kv.1.data ||
                kv.1.data.isPrefixOf lowerTop.data)).map (·.1) with
          | some slug => some slug
          | none =>
            match (maps.lowercase_category_name_to_slug.find?
                (fun kv => lowerTop.data.isPrefixOf kv.1.data ||
                  kv.1.data.isPrefixOf lowerTop.data)).map (·.2) with
            | some slug => some slug
            | none =>
              (maps.lowercase_category_name_to_slug.find?
                (fun kv => 2 < byteLen lowerTop &&
                  containsSub lowerTop.data kv.1.data)).map (·.2)

/-- Consume an ASCII digit run of length at least one (the regex `\d+`);
returns the rest on success. -/
def digits1 : List Char → Option (List Char)
  | [] => none
  | c :: rest => if c.isDigit then some (rest.dropWhile Char.isDigit) else none

/-- Greedily consume the regex `(\.\d+)*`. -/
def dotDigitsStar : Nat → List Char → List Char
  | 0, cs => cs
  | fuel + 1, cs =>
    match cs with
    | '.' :: rest =>
      match digits1 rest with
      | some rest2 => dotDigitsStar fuel rest2
      | none => cs
    | _ => cs

/-- Attempt the alternative `_v\d+(\.\d+)*` after an underscore was seen:
given the characters after the underscore, returns the rest on success. -/
def matchUnderscoreV : List Char → Option (List Char)
  | [] => none
  | v :: rest =>
    if v = 'v' ∨ v = 'V' then
      match digits1 rest with
      | some rest2 => some (dotDigitsStar rest2.length rest2)
      | none => none
    else none

/-- Fuelled left-to-right pass of
`MOD_NAME_CLEANUP_REGEX.replace_all(input, "")` (main.rs lines 185, 1106) for
the regex `(?i)(_v\d+(\.\d+)*|_DISABLED|DISABLED_|\(disabled\)|^DISABLED_)`.
Leftmost-first: at an underscore the version alternative is tried before the
literal `_DISABLED`; the anchored final alternative is shadowed by the
unanchored `DISABLED_`.  Matches are deleted. -/
def modNameCleanupFuel : Nat → List Char → List Char
  | 0, cs => cs
  | _ + 1, [] => []
  | fuel + 1, c :: rest =>
    if c = '_' then
      match matchUnderscoreV rest with
      | some rest2 => modNameCleanupFuel fuel rest2
      | none =>
        match dropPrefixCI "DISABLED".data rest with
        | some rest2 => modNameCleanupFuel fuel rest2
        | none => '_' :: modNameCleanupFuel fuel rest
    else
      match dropPrefixCI "DISABLED_".data (c :: rest) with
      | some rest2 => modNameCleanupFuel fuel rest2
      | none =>
        if c = '(' then
          match dropPrefixCI "disabled)".data rest with
          | some rest2 => modNameCleanupFuel fuel rest2
          | none => c :: modNameCleanupFuel fuel rest
        else c :: modNameCleanupFuel fuel rest

/-- Full MOD_NAME_CLEANUP_REGEX replacement pass over a string. -/
def modNameCleanupAll (s : String) : String :=
  ⟨modNameCleanupFuel s.data.length s.data⟩

/-- Entity-resolution phase of `deduce_mod_info_v2` (steps 1, 2, 4 and 5,
main.rs lines 850-953): mod folder name, parent folder names, INI target
hint, then internal file-name stems, stopping at the first success. -/
def deduceFoundEntity (modFolderPath baseModsPath : List String)
    (maps : DeductionMaps) (files : List FsFile) : Option String :=
  let ext := deduceIniExtract files
  firstSome
    [(match pathFileName modFolderPath with
      | some n => find_entity_slug_from_hint n maps
      | none => none),
     parentEntityWalkFuel maps baseModsPath modFolderPath.length
       (pathParent modFolderPath),
     (match ext.target with
      | some th => find_entity_slug_from_hint th maps
      | none => none),
     firstSome (files.map (fun f =>
       if f.isFile then
         let stem := rustFileStem f.name
         if stem.isEmpty then none else find_entity_slug_from_hint stem maps
       else none))]

/-- Category-fallback phase of `deduce_mod_info_v2` (main.rs lines 964-1089):
parent folders, INI type hint, then top-level folder. -/
def deduceFallbackCategory (modFolderPath baseModsPath : List String)
    (maps : DeductionMaps) (files : List FsFile) : Option String :=
  let ext := deduceIniExtract files
  firstSome
    [parentCategoryWalkFuel maps baseModsPath modFolderPath.length
       (pathParent modFolderPath),
     (match ext.typ with
      | some th => categoryFromTypeHint th maps
      | none => none),
     categoryFromTopLevel modFolderPath baseModsPath maps]

/-- Embedding of `deduce_mod_info_v2` (main.rs lines 823-1117).  The mod
folder is given as its absolute component list together with its depth-1
directory listing; the mods root as a component list.  Returns `none` exactly
when the folder path has no final component (main.rs lines 830-836);
otherwise assigns the resolved entity slug, the category fallback's
`-other` slug, or the hard-coded `characters-other`, extracts INI metadata
and the preview image, and finally cleans the display name, reverting to the
raw folder name when cleanup empties it (main.rs lines 1104-1113). -/
def deduce_mod_info_v2 (modFolderPath baseModsPath : List String)
    (maps : DeductionMaps) (files : List FsFile) : Option DeducedInfo :=
  match pathFileName modFolderPath with
  | none => none
  | some modFolderName =>
    let ext := deduceIniExtract files
    let info1 : DeducedInfo :=
      { entity_slug :=
          match deduceFoundEntity modFolderPath baseModsPath maps files with
          | some slug => slug
          | none =>
            match deduceFallbackCategory modFolderPath baseModsPath maps files with
            | some cat => cat ++ OTHER_ENTITY_SUFFIX
            | none => "characters" ++ OTHER_ENTITY_SUFFIX,
        mod_name := ext.name.getD modFolderName,
        mod_type_tag := ext.typ,
        author := ext.author,
        description := ext.description,
        image_filename := find_preview_image files }
    let cleaned := rustTrimStr (modNameCleanupAll info1.mod_name)
    some
      (if cleaned.isEmpty then { info1 with mod_name := modFolderName }
       else { info1 with mod_name := cleaned })

/-- Replace backslashes by forward slashes
(the `replace("\x5c", "/")` normalisation applied to every stored path). -/
def normSlash (s : String) : String :=
  ⟨s.data.map (fun c => if c = '\\' then '/' else c)⟩

/-- Splitting a character list at slashes; `acc` holds the pending component
in reverse. -/
def splitCompsAux (acc : List Char) : List Char → List String
  | [] => [⟨acc.reverse⟩]
  | c :: rest =>
    if c = '/' then (⟨acc.reverse⟩ : String) :: splitCompsAux [] rest
    else splitCompsAux (c :: acc) rest

/-- Components of a relative path string: split on slashes, dropping empty
and current-dir components, as Rust `Path::components` does. -/
def pathComps (s : String) : List String :=
  (splitCompsAux [] s.data).filter (fun c => c ≠ "" && c ≠ ".")

instance {ε α : Type} [DecidableEq ε] [DecidableEq α] : DecidableEq (Except ε α) :=
  fun x y =>
    match x, y with
    | .ok a, .ok b =>
      if h : a = b then isTrue (h ▸ rfl)
      else isFalse (fun hc => h (Except.ok.inj hc))
    | .error a, .error b =>
      if h : a = b then isTrue (h ▸ rfl)
      else isFalse (fun hc => h (Except.error.inj hc))
    | .ok _, .error _ => isFalse (fun hc => Except.noConfusion hc)
    | .error _, .ok _ => isFalse (fun hc => Except.noConfusion hc)

/-- Rust `Path::file_name` of a component list (`none` for an empty path or
one ending in a parent-dir component). -/
def fileNameOfComps (comps : List String) : Option String :=
  match comps.getLast? with
  | some c => if c = ".." then none else some c
  | none => none

/-- One `assets` table row (the columns the modelled operations read). -/
structure AssetRow where
  id : Int
  entity_id : Int
  folder_name : String
deriving DecidableEq

/-- Enabled candidate path: `base_mods_path.join(clean_relative_path)`
(main.rs line 1988 and the identical constructions at the other sites). -/
def enabledPath (base : List String) (comps : List String) : List String :=
  base ++ comps

/-- Disabled candidate path: the sibling whose final segment carries the
DISABLED_ prefix (main.rs lines 1984, 1991-1994). -/
def disabledPath (base : List String) (comps : List String) (filename : String) :
    List String :=
  base ++ comps.dropLast ++ [DISABLED_PREFIX ++ filename]

/-- Filesystem model for the enable-state operations: the list of existing
directory paths (absolute, as component lists).  `renameFs` is the
success-case effect of `fs::rename` on the folder's own path; a rename whose
destination directory already exists fails in the source, so callers guard it
(see `toggle_asset_enabled`).  Children are not tracked, which is all the
claims about these operations mention. -/
def renameFs (fs : List (List String)) (src dst : List String) :
    List (List String) :=
  fs.map (fun p => if p = src then dst else p)

/-- Embedding of `toggle_asset_enabled` (main.rs lines 1955-2034): fetch the
clean stored relative path by asset id, build the two candidate absolute
paths, rename whichever exists (enabled checked first) to the other, and
return the new logical state.  `fs::rename` onto an already-existing
directory fails, and the source propagates that failure as an error
(main.rs lines 2027-2028), so the rename is guarded by the destination not
existing.  The catalog is returned unchanged — the source performs no
catalog write in this command. -/
def toggle_asset_enabled (catalog : List AssetRow) (assetId : Int)
    (base : List String) (fs : List (List String)) :
    Except String (List AssetRow × List (List String) × Bool) :=
  match catalog.find? (fun r => r.id == assetId) with
  | none => .error "Failed to get relative path from DB"
  | some row =>
    match fileNameOfComps (pathComps (normSlash row.folder_name)) with
    | none => .error "Could not extract filename from DB path"
    | some filename =>
      if filename = "" then .error "Filename extracted from DB path is empty"
      else if enabledPath base (pathComps (normSlash row.folder_name)) ∈ fs then
        if disabledPath base (pathComps (normSlash row.folder_name)) filename ∈ fs then
          .error "Failed to rename"
        else
          .ok (catalog,
            renameFs fs (enabledPath base (pathComps (normSlash row.folder_name)))
              (disabledPath base (pathComps (normSlash row.folder_name)) filename),
            false)
      else if disabledPath base (pathComps (normSlash row.folder_name)) filename ∈ fs then
        if enabledPath base (pathComps (normSlash row.folder_name)) ∈ fs then
          .error "Failed to rename"
        else
          .ok (catalog,
            renameFs fs (disabledPath base (pathComps (normSlash row.folder_name)) filename)
              (enabledPath base (pathComps (normSlash row.folder_name))),
            true)
      else .error "Folder not found at expected locations"

/-- State classification of `get_assets_for_entity` (main.rs lines 1896-1934):
enabled path checked first; `none` when the filename is empty or neither
candidate exists (the asset is skipped). -/
def getAssetsIsEnabled (base : List String) (fs : List (List String))
    (cleanRel : String) : Option Bool :=
  match fileNameOfComps (pathComps (normSlash cleanRel)) with
  | none => none
  | some filename =>
    if filename = "" then none
    else if enabledPath base (pathComps (normSlash cleanRel)) ∈ fs then some true
    else if disabledPath base (pathComps (normSlash cleanRel)) filename ∈ fs then some false
    else none

/-- State capture of `create_preset` (main.rs lines 3706-3726): 1 when the
enabled path exists, else 0 when the disabled path exists, else the asset is
skipped. -/
def createPresetIsEnabled (base : List String) (fs : List (List String))
    (cleanRel : String) : Option Int :=
  match fileNameOfComps (pathComps (normSlash cleanRel)) with
  | none => none
  | some filename =>
    if filename = "" then none
    else if enabledPath base (pathComps (normSlash cleanRel)) ∈ fs then some 1
    else if disabledPath base (pathComps (normSlash cleanRel)) filename ∈ fs then some 0
    else none

/-- Current-state detection of `apply_preset` (main.rs lines 3848-3882):
enabled path checked first; `none` when neither exists (error recorded,
asset skipped). -/
def applyPresetCurrentIsEnabled (base : List String) (fs : List (List String))
    (cleanRel : String) : Option Bool :=
  match fileNameOfComps (pathComps (normSlash cleanRel)) with
  | none => none
  | some filename =>
    if filename = "" then none
    else if enabledPath base (pathComps (normSlash cleanRel)) ∈ fs then some true
    else if disabledPath base (pathComps (normSlash cleanRel)) filename ∈ fs then some false
    else none

/-- Enabled/disabled classification of the dashboard count
(main.rs lines 4011-4040): enabled path checked first; `none` counts as a
disk-check error. -/
def dashboardIsEnabled (base : List String) (fs : List (List String))
    (cleanRel : String) : Option Bool :=
  match fileNameOfComps (pathComps (normSlash cleanRel)) with
  | none => none
  | some filename =>
    if filename = "" then none
    else if enabledPath base (pathComps (normSlash cleanRel)) ∈ fs then some true
    else if disabledPath base (pathComps (normSlash cleanRel)) filename ∈ fs then some false
    else none

/-- EXCLUDED_INI_FILENAMES (main.rs lines 187-198). -/
def EXCLUDED_INI_FILENAMES : List String :=
  ["orfix.ini", "region.ini", "offset.ini", "water.ini", "fixdash.ini",
   "deltatime.ini", "object.ini", "timer.ini"]

/-- Case-sensitive literal-prefix strip. -/
def dropPrefixEq : List Char → List Char → Option (List Char)
  | [], cs => some cs
  | _ :: _, [] => none
  | p :: ps, c :: cs => if p = c then dropPrefixEq ps cs else none

/-- Rust `str::trim_start_matches`: repeatedly removes the pattern from the
front while it is a prefix.  `fuel` bounds the iteration; the input length is
adequate for a non-empty pattern. -/
def trimStartAll (pat : List Char) : Nat → List Char → List Char
  | 0, cs => cs
  | fuel + 1, cs =>
    match dropPrefixEq pat cs with
    | some rest => if rest.length < cs.length then trimStartAll pat fuel rest else cs
    | none => cs

/-- Embedding of `has_ini_file` (main.rs lines 1143-1192): a directory is a
candidate mod folder when some depth-1 regular file has extension `ini`
(ASCII-case-insensitively) and its lowercased name — with every leading
occurrence of the lowercased DISABLED_ marker removed when it starts with the
marker — is not in the exclusion set. -/
def has_ini_file (isDir : Bool) (entries : List FsFile) : Bool :=
  isDir &&
    entries.any (fun f =>
      f.isFile &&
        (match rustExtension f.name with
         | some e => eqIgnoreAsciiCase e "ini"
         | none => false) &&
        (let lowerName := (rustLower f.name).data
         let marker := (rustLower DISABLED_PREFIX).data
         let base : List Char :=
           if marker.isPrefixOf lowerName then
             trimStartAll marker lowerName.length lowerName
           else lowerName
         !(EXCLUDED_INI_FILENAMES.contains (⟨base⟩ : String))))

/-- Running state of the reconciliation walk of `scan_mods_directory`
(main.rs lines 2247-2428): the live assets table, the ids marked found, the
insert and uniqueness-skip counters, and the next fresh row id. -/
structure ScanState where
  catalog : List AssetRow
  found : List Int
  inserted : Nat
  skipped : Nat
  nextId : Int

/-- Reconciliation of one candidate mod folder (main.rs lines 2357-2404),
given its deduced entity id and computed clean relative path: when a row with
that (entity, path) pair exists it is marked found; otherwise a new row is
inserted and marked found, unless another row already holds the same
folder_name, in which case the UNIQUE constraint fires and the insert is
skipped. -/
def scanFolderStep (st : ScanState) (f : Int × String) : ScanState :=
  match st.catalog.find? (fun r => r.entity_id == f.1 && r.folder_name == f.2) with
  | some r => { st with found := r.id :: st.found }
  | none =>
    if st.catalog.any (fun r => r.folder_name == f.2) then
      { st with skipped := st.skipped + 1 }
    else
      { st with
        catalog := st.catalog ++ [⟨st.nextId, f.1, f.2⟩],
        found := st.nextId :: st.found,
        inserted := st.inserted + 1,
        nextId := st.nextId + 1 }

/-- The candidate-folder walk of the scan, over the deterministic sequence of
(deduced entity id, clean relative path) pairs the walk and deduction produce
for the fixed disk tree, in walk order. -/
def scanLoop (st : ScanState) : List (Int × String) → ScanState
  | [] => st
  | f :: rest => scanLoop (scanFolderStep st f) rest

/-- Outcome of one scan. -/
structure ScanResult where
  catalog : List AssetRow
  inserted : Nat
  skipped : Nat
  prunedIds : List Int
  nextId : Int
deriving DecidableEq

/-- Embedding of the reconciliation core of `scan_mods_directory`
(main.rs lines 2223-2483).  `folders` is the sequence of
(deduced entity id, computed clean relative path) pairs produced by the
directory walk and the deduction pipeline over the on-disk tree, in walk
order; folders whose deduced slug has no entity id, or whose deduction or
rename fails, contribute nothing to the catalog and are therefore not listed.
`nextId` is the next SQLite rowid.  After the walk, every id present at the
start and never marked found is pruned (main.rs lines 2430-2478). -/
def scan_mods_directory (catalog : List AssetRow)
    (folders : List (Int × String)) (nextId : Int) : ScanResult :=
  let initialIds := catalog.map (·.id)
  let st := scanLoop ⟨catalog, [], 0, 0, nextId⟩ folders
  let pruned := initialIds.filter (fun i => !(st.found.contains i))
  { catalog := st.catalog.filter (fun r => !(pruned.contains r.id)),
    inserted := st.inserted,
    skipped := st.skipped,
    prunedIds := pruned,
    nextId := st.nextId }

/-- No parenthesis or bracket character occurs in the list. -/
def noBracket (cs : List Char) : Bool :=
  cs.all (fun c => c ≠ '(' && c ≠ ')' && c ≠ '[' && c ≠ ']')

/-- No two adjacent spaces occur in the list. -/
def noDoubleSpace : List Char → Bool
  | a :: b :: rest => !(a = ' ' && b = ' ') && noDoubleSpace (b :: rest)
  | _ => true

/-- Candidate-mod-folder predicate in the words of claim C9, with the
disabled marker stripped exactly once from the lowercased file name.  This is
the spec-side reading, to be compared with `has_ini_file`. -/
def claimCandidateOnce (entries : List FsFile) : Bool :=
  entries.any (fun f =>
    f.isFile &&
      (match rustExtension f.name with
       | some e => eqIgnoreAsciiCase e "ini"
       | none => false) &&
      (let lowerName := (rustLower f.name).data
       let marker := (rustLower DISABLED_PREFIX).data
       let base : List Char :=
         match dropPrefixEq marker lowerName with
         | some r => r
         | none => lowerName
       !(EXCLUDED_INI_FILENAMES.contains (⟨base⟩ : String))))

/-- Entity table of the C5 counterexample: the full name of the first entity
collides with the slug of the second. -/
def c5Ents : List EntityRow :=
  [⟨"b", 1, "Beta", 10⟩, ⟨"Beta", 2, "B", 10⟩]

/-- Taxonomy index of the C5 counterexample. -/
def c5Maps : DeductionMaps :=
  fetch_deduction_maps [⟨"cat", 10, "Cat"⟩] c5Ents

/-- Lowercased file name with every leading repetition of the lowercased
disabled marker removed (when it starts with the marker): the base name
`has_ini_file` tests against the exclusion set. -/
def strippedMarkerAll (name : String) : String :=
  let lowerName := (rustLower name).data
  let marker := (rustLower DISABLED_PREFIX).data
  if marker.isPrefixOf lowerName then
    ⟨trimStartAll marker lowerName.length lowerName⟩
  else ⟨lowerName⟩

/-! Theorems.  The development below settles the ten claims; helper lemmas
come first, each claim's theorem carries the claim id in its doc comment. -/

example : clean_and_extract_name "Raiden_Shogun_v2_DISABLED" = "raiden shogun v" := by decide

example : clean_and_extract_name "a_(b)_c" = "a   c" := by decide

example : clean_and_extract_name "DISABLED_Foo" = "foo" := by decide

example : clean_and_extract_name "hello_world" = "hello world" := by decide

example : find_entity_slug_from_hint "Raiden_Shogun_v2_DISABLED" raidenMaps =
    some "raiden-shogun" := by decide

example :
    deduce_mod_info_v2 ["mods", "Weapons", "Falcon"] ["mods"]
      (fetch_deduction_maps [⟨"weapons", 3, "Weapons"⟩]
        [⟨"weapons-other", 7, "Weapons Other", 3⟩])
      [⟨"mod.ini", true, some ⟨[]⟩⟩] =
    some ⟨"weapons-other", "Falcon", none, none, none, none⟩ := by decide

example :
    deduce_mod_info_v2 ["m", "Stuff", "XYZq"] ["m"] (fetch_deduction_maps [] []) [] =
    some ⟨"characters-other", "XYZq", none, none, none, none⟩ := by decide

example : has_ini_file true [⟨"mod.ini", true, none⟩] = true := by decide

example : has_ini_file true [⟨"DISABLED_orfix.ini", true, none⟩] = false := by decide

/-- C4, counterexample: the hint of the scenario does not clean to
`raiden shogun` (the version alternative of the cleanup regex is shadowed by
the separator class, so `v` survives), and strategy 3 therefore fails on the
cleaned hint even though the index contains the entity named Raiden
Shogun. -/
theorem C4_counterexample :
    clean_and_extract_name "Raiden_Shogun_v2_DISABLED" ≠ "raiden shogun" ∧
    strat3 (clean_and_extract_name "Raiden_Shogun_v2_DISABLED") raidenMaps = none := by
  decide

/-- C4, amended: the hint `Raiden_Shogun_v2_DISABLED` cleans to
`raiden shogun v`; matching it against a taxonomy index containing the entity
named `Raiden Shogun` fails strategies 1 to 5 and succeeds via strategy 6
(the first whitespace token of the cleaned hint equals that entity's
first-name key), and the full cascade returns that entity's slug. -/
theorem C4_raiden_scenario :
    clean_and_extract_name "Raiden_Shogun_v2_DISABLED" = "raiden shogun v" ∧
    strat1 "Raiden_Shogun_v2_DISABLED" raidenMaps = none ∧
    strat2 (rustLower "Raiden_Shogun_v2_DISABLED") raidenMaps = none ∧
    strat3 "raiden shogun v" raidenMaps = none ∧
    strat4 "raiden shogun v" raidenMaps = none ∧
    strat5 "raiden shogun v" raidenMaps = none ∧
    strat6 "raiden shogun v" raidenMaps = some "raiden-shogun" ∧
    find_entity_slug_from_hint "Raiden_Shogun_v2_DISABLED" raidenMaps =
      some "raiden-shogun" := by
  decide

/-- C9, counterexample: a folder whose only INI file is
`DISABLED_DISABLED_orfix.ini` satisfies the claim's predicate (stripping the
marker once leaves `disabled_orfix.ini`, which is not excluded), yet
`has_ini_file` rejects it, because `trim_start_matches` removes every leading
repetition of the marker and reaches the excluded `orfix.ini`. -/
theorem C9_counterexample :
    claimCandidateOnce [⟨"DISABLED_DISABLED_orfix.ini", true, none⟩] = true ∧
    has_ini_file true [⟨"DISABLED_DISABLED_orfix.ini", true, none⟩] = false := by
  decide

/-- C9, amended: the candidate predicate holds for a directory iff it
directly contains a regular file whose extension is `ini` (ASCII case
insensitively) and whose lowercased name, with every leading repetition of
the disabled marker stripped, is not in the exclusion set. -/
theorem C9_candidate_iff (isDir : Bool) (entries : List FsFile) :
    has_ini_file isDir entries = true ↔
      isDir = true ∧ ∃ f ∈ entries, f.isFile = true ∧
        (∃ e, rustExtension f.name = some e ∧ eqIgnoreAsciiCase e "ini" = true) ∧
        strippedMarkerAll f.name ∉ EXCLUDED_INI_FILENAMES := by
  unfold has_ini_file strippedMarkerAll
  rw [Bool.and_eq_true, List.any_eq_true]
  refine and_congr Iff.rfl (exists_congr fun f => and_congr Iff.rfl ?_)
  simp only [Bool.and_eq_true, and_assoc]
  refine and_congr Iff.rfl (and_congr ?_ ?_)
  · cases h : rustExtension f.name with
    | none => simp [h]
    | some e => simp [h]
  · simp only [Bool.not_eq_true', ← Bool.not_eq_true,
      List.contains_iff_exists_mem_beq, beq_iff_eq]
    split <;> simp_all

theorem renameFs_not_mem_src (fs : List (List String)) (src dst : List String)
    (h : src ≠ dst) : src ∉ renameFs fs src dst := by
  intro hmem
  rcases List.mem_map.mp hmem with ⟨q, _, hq⟩
  by_cases hqs : q = src
  · rw [if_pos hqs] at hq; exact h hq.symm
  · rw [if_neg hqs] at hq; exact hqs hq

theorem renameFs_mem_dst (fs : List (List String)) (src dst : List String)
    (h : src ∈ fs) : dst ∈ renameFs fs src dst := by
  refine List.mem_map.mpr ⟨src, h, ?_⟩
  rw [if_pos rfl]

theorem renameFs_renameFs (fs : List (List String)) (src dst : List String)
    (hdst : dst ∉ fs) : renameFs (renameFs fs src dst) dst src = fs := by
  unfold renameFs
  rw [List.map_map]
  apply List.map_congr_left ?_ |>.trans (List.map_id fs)
  intro q hq
  simp only [Function.comp_apply, id_eq]
  by_cases hqs : q = src
  · subst hqs; simp
  · have hqd : q ≠ dst := fun hc => hdst (hc ▸ hq)
    rw [if_neg hqs, if_neg hqd]

theorem fileNameOfComps_getLast {comps : List String} {f : String}
    (h : fileNameOfComps comps = some f) : comps.getLast? = some f := by
  unfold fileNameOfComps at h
  cases hl : comps.getLast? with
  | none => rw [hl] at h; simp at h
  | some c =>
    rw [hl] at h
    by_cases hc : c = ".."
    · simp [hc] at h
    · simpa [hc] using h

theorem enabledPath_ne_disabledPath (base : List String) (comps : List String)
    (filename : String) (h : comps.getLast? = some filename) :
    enabledPath base comps ≠ disabledPath base comps filename := by
  intro he
  have h1 : (enabledPath base comps).getLast? = some filename := by
    unfold enabledPath
    rw [List.getLast?_append_of_ne_nil]
    · exact h
    · intro hc; rw [hc] at h; exact Option.noConfusion h
  have h2 : (disabledPath base comps filename).getLast? =
      some (DISABLED_PREFIX ++ filename) := by
    unfold disabledPath
    rw [List.getLast?_append_of_ne_nil] <;> simp
  rw [he, h2] at h1
  have h3 : DISABLED_PREFIX ++ filename = filename := by
    exact Option.some.inj h1
  have h4 : (DISABLED_PREFIX ++ filename).data.length = filename.data.length :=
    congrArg (fun s => s.data.length) h3
  rw [String.data_append, List.length_append] at h4
  simp [DISABLED_PREFIX] at h4

/-- C8: a successful toggle only renames the on-disk folder and never writes
to the catalog: the assets table (in particular the toggled row's stored
clean relative path) is identical before and after. -/
theorem C8_toggle_frame (catalog : List AssetRow) (assetId : Int)
    (base : List String) (fs : List (List String))
    (catalog2 : List AssetRow) (fs2 : List (List String)) (b : Bool)
    (h : toggle_asset_enabled catalog assetId base fs = .ok (catalog2, fs2, b)) :
    catalog2 = catalog := by
  unfold toggle_asset_enabled at h
  repeat' split at h
  all_goals simp_all

/-- C8, witness: a concrete successful toggle, to which the frame theorem
applies. -/
theorem C8_toggle_frame_witness :
    toggle_asset_enabled [⟨1, 5, "w/e/m"⟩] 1 ["root"] [["root", "w", "e", "m"]] =
      .ok ([⟨1, 5, "w/e/m"⟩], [["root", "w", "e", "DISABLED_m"]], false) ∧
    ([⟨1, 5, "w/e/m"⟩] : List AssetRow) = [⟨1, 5, "w/e/m"⟩] :=
  ⟨by decide,
   C8_toggle_frame [⟨1, 5, "w/e/m"⟩] 1 ["root"] [["root", "w", "e", "m"]]
     [⟨1, 5, "w/e/m"⟩] [["root", "w", "e", "DISABLED_m"]] false (by decide)⟩

/-- C7: for an asset whose folder exists on disk in exactly one of its two
candidate forms, toggling twice succeeds and restores the filesystem, hence
the original on-disk path, exactly; the catalog is untouched throughout. -/
theorem C7_toggle_roundtrip (catalog : List AssetRow) (assetId : Int)
    (base : List String) (fs : List (List String)) (row : AssetRow)
    (filename : String)
    (hfind : catalog.find? (fun r => r.id == assetId) = some row)
    (hfn : fileNameOfComps (pathComps (normSlash row.folder_name)) = some filename)
    (hne : filename ≠ "")
    (hx : (enabledPath base (pathComps (normSlash row.folder_name)) ∈ fs ∧
           disabledPath base (pathComps (normSlash row.folder_name)) filename ∉ fs) ∨
          (disabledPath base (pathComps (normSlash row.folder_name)) filename ∈ fs ∧
           enabledPath base (pathComps (normSlash row.folder_name)) ∉ fs)) :
    ∃ fs1 b1 fs2 b2,
      toggle_asset_enabled catalog assetId base fs = .ok (catalog, fs1, b1) ∧
      toggle_asset_enabled catalog assetId base fs1 = .ok (catalog, fs2, b2) ∧
      fs2 = fs := by
  have hED := enabledPath_ne_disabledPath base (pathComps (normSlash row.folder_name))
    filename (fileNameOfComps_getLast hfn)
  set pE := enabledPath base (pathComps (normSlash row.folder_name)) with hpE
  set pD := disabledPath base (pathComps (normSlash row.folder_name)) filename with hpD
  rcases hx with ⟨hE, hD⟩ | ⟨hD, hE⟩
  · refine ⟨renameFs fs pE pD, false, fs, true, ?_, ?_, rfl⟩
    · unfold toggle_asset_enabled
      rw [hfind]
      simp only [hfn, ← hpE, ← hpD]
      rw [if_neg hne, if_pos hE, if_neg hD]
    · unfold toggle_asset_enabled
      rw [hfind]
      simp only [hfn, ← hpE, ← hpD]
      rw [if_neg hne, if_neg (renameFs_not_mem_src fs pE pD hED),
        if_pos (renameFs_mem_dst fs pE pD hE),
        if_neg (renameFs_not_mem_src fs pE pD hED),
        renameFs_renameFs fs pE pD hD]
  · refine ⟨renameFs fs pD pE, true, fs, false, ?_, ?_, rfl⟩
    · unfold toggle_asset_enabled
      rw [hfind]
      simp only [hfn, ← hpE, ← hpD]
      rw [if_neg hne, if_neg hE, if_pos hD, if_neg hE]
    · unfold toggle_asset_enabled
      rw [hfind]
      simp only [hfn, ← hpE, ← hpD]
      rw [if_neg hne, if_pos (renameFs_mem_dst fs pD pE hD),
        if_neg (renameFs_not_mem_src fs pD pE (Ne.symm hED)),
        renameFs_renameFs fs pD pE hE]

/-- C7, witness: a concrete enabled-only asset, toggled twice back to its
original path. -/
theorem C7_toggle_roundtrip_witness :
    ∃ fs1 b1 fs2 b2,
      toggle_asset_enabled [⟨1, 5, "w/e/m"⟩] 1 ["root"] [["root", "w", "e", "m"]] =
        .ok ([⟨1, 5, "w/e/m"⟩], fs1, b1) ∧
      toggle_asset_enabled [⟨1, 5, "w/e/m"⟩] 1 ["root"] fs1 =
        .ok ([⟨1, 5, "w/e/m"⟩], fs2, b2) ∧
      fs2 = [["root", "w", "e", "m"]] :=
  C7_toggle_roundtrip [⟨1, 5, "w/e/m"⟩] 1 ["root"] [["root", "w", "e", "m"]]
    ⟨1, 5, "w/e/m"⟩ "m" (by decide) (by decide) (by decide)
    (Or.inl (by decide))

/-- C10, counterexample: with both folder forms on disk the toggle does not
treat the asset as a toggleable enabled asset — it attempts to rename the
enabled folder onto the already-existing disabled directory, `fs::rename`
fails, and the command returns the rename error (main.rs lines 2027-2028)
instead of succeeding with the new state disabled.  So not every operation
listed by the claim handles the both-exist state as an ordinary enabled
asset. -/
theorem C10_counterexample :
    toggle_asset_enabled [⟨1, 5, "w/e/m"⟩] 1 ["root"]
        [["root", "w", "e", "m"], ["root", "w", "e", "DISABLED_m"]] =
      .error "Failed to rename" := by
  decide

/-- C10 (amended): when both the enabled and the disabled-prefixed form of an
asset's folder exist on disk, the four read-only classification sites — asset
listing, preset capture, preset application and dashboard count — each treat
the asset as enabled, because each checks the enabled candidate first; the
toggle likewise takes the enabled branch first and attempts to rename the
enabled folder onto the disabled path, but that rename's destination already
exists, so the toggle returns the rename error rather than toggling. -/
theorem C10_both_exist_enabled (base : List String) (fs : List (List String))
    (cleanRel filename : String)
    (hfn : fileNameOfComps (pathComps (normSlash cleanRel)) = some filename)
    (hne : filename ≠ "")
    (hE : enabledPath base (pathComps (normSlash cleanRel)) ∈ fs)
    (hD : disabledPath base (pathComps (normSlash cleanRel)) filename ∈ fs)
    (catalog : List AssetRow) (assetId : Int) (row : AssetRow)
    (hfind : catalog.find? (fun r => r.id == assetId) = some row)
    (hrel : row.folder_name = cleanRel) :
    getAssetsIsEnabled base fs cleanRel = some true ∧
    createPresetIsEnabled base fs cleanRel = some 1 ∧
    applyPresetCurrentIsEnabled base fs cleanRel = some true ∧
    dashboardIsEnabled base fs cleanRel = some true ∧
    toggle_asset_enabled catalog assetId base fs = .error "Failed to rename" := by
  refine ⟨?_, ?_, ?_, ?_, ?_⟩
  · unfold getAssetsIsEnabled
    simp only [hfn]
    rw [if_neg hne, if_pos hE]
  · unfold createPresetIsEnabled
    simp only [hfn]
    rw [if_neg hne, if_pos hE]
  · unfold applyPresetCurrentIsEnabled
    simp only [hfn]
    rw [if_neg hne, if_pos hE]
  · unfold dashboardIsEnabled
    simp only [hfn]
    rw [if_neg hne, if_pos hE]
  · unfold toggle_asset_enabled
    rw [hfind]
    simp only [hrel, hfn]
    rw [if_neg hne, if_pos hE, if_pos hD]

/-- C10, witness: a concrete asset present in both forms is classified
enabled by the four read-only sites, and its toggle returns the rename
error. -/
theorem C10_both_exist_enabled_witness :
    getAssetsIsEnabled ["root"] [["root", "w", "e", "m"], ["root", "w", "e", "DISABLED_m"]]
        "w/e/m" = some true ∧
    createPresetIsEnabled ["root"] [["root", "w", "e", "m"], ["root", "w", "e", "DISABLED_m"]]
        "w/e/m" = some 1 ∧
    applyPresetCurrentIsEnabled ["root"]
        [["root", "w", "e", "m"], ["root", "w", "e", "DISABLED_m"]] "w/e/m" = some true ∧
    dashboardIsEnabled ["root"] [["root", "w", "e", "m"], ["root", "w", "e", "DISABLED_m"]]
        "w/e/m" = some true ∧
    toggle_asset_enabled [⟨1, 5, "w/e/m"⟩] 1 ["root"]
        [["root", "w", "e", "m"], ["root", "w", "e", "DISABLED_m"]] =
      .error "Failed to rename" :=
  C10_both_exist_enabled ["root"]
    [["root", "w", "e", "m"], ["root", "w", "e", "DISABLED_m"]] "w/e/m" "m"
    (by decide) (by decide) (by decide) (by decide)
    [⟨1, 5, "w/e/m"⟩] 1 ⟨1, 5, "w/e/m"⟩ (by decide) rfl

/-- C6, counterexample: on a mod folder path with no final component the
pipeline does fail — it returns `none` (main.rs lines 830-836) — so it does
not always produce a Deduction. -/
theorem C6_counterexample :
    deduce_mod_info_v2 [] ["m"] (fetch_deduction_maps [] []) [] = none := by
  decide

/-- C6, amended: for every mod folder path that has a final component, the
deduction pipeline always produces a Deduction: the entity slug is the
entity-resolution phase's result when it succeeds; otherwise the resolved
fallback category's synthetic `-other` slug; and when no category is found
either, the hard-coded default category's `-other` slug
(`characters-other`). -/
theorem C6_deduction_total (modPath basePath : List String)
    (maps : DeductionMaps) (files : List FsFile) (h : modPath ≠ []) :
    ∃ info, deduce_mod_info_v2 modPath basePath maps files = some info ∧
      ((∃ s, deduceFoundEntity modPath basePath maps files = some s ∧
          info.entity_slug = s) ∨
       (deduceFoundEntity modPath basePath maps files = none ∧
        ∃ c, deduceFallbackCategory modPath basePath maps files = some c ∧
          info.entity_slug = c ++ OTHER_ENTITY_SUFFIX) ∨
       (deduceFoundEntity modPath basePath maps files = none ∧
        deduceFallbackCategory modPath basePath maps files = none ∧
        info.entity_slug = "characters" ++ OTHER_ENTITY_SUFFIX)) := by
  have hname : ∃ n, pathFileName modPath = some n := by
    unfold pathFileName
    cases hg : modPath.getLast? with
    | none => exact absurd (List.getLast?_eq_none_iff.mp hg) h
    | some n => exact ⟨n, rfl⟩
  rcases hname with ⟨n, hn⟩
  unfold deduce_mod_info_v2
  rw [hn]
  refine ⟨_, rfl, ?_⟩
  cases hFE : deduceFoundEntity modPath basePath maps files with
  | some s =>
    left
    refine ⟨s, rfl, ?_⟩
    simp only [hFE]
    split <;> rfl
  | none =>
    cases hFC : deduceFallbackCategory modPath basePath maps files with
    | some c =>
      right; left
      refine ⟨rfl, c, rfl, ?_⟩
      simp only [hFE, hFC]
      split <;> rfl
    | none =>
      right; right
      refine ⟨rfl, rfl, ?_⟩
      simp only [hFE, hFC]
      split <;> rfl

/-- C6, witness: a concrete folder with no matching hints lands on the
hard-coded `characters-other` fallback. -/
theorem C6_deduction_total_witness :
    ∃ info, deduce_mod_info_v2 ["m", "Stuff", "XYZq"] ["m"]
        (fetch_deduction_maps [] []) [] = some info ∧
      ((∃ s, deduceFoundEntity ["m", "Stuff", "XYZq"] ["m"]
          (fetch_deduction_maps [] []) [] = some s ∧ info.entity_slug = s) ∨
       (deduceFoundEntity ["m", "Stuff", "XYZq"] ["m"]
          (fetch_deduction_maps [] []) [] = none ∧
        ∃ c, deduceFallbackCategory ["m", "Stuff", "XYZq"] ["m"]
            (fetch_deduction_maps [] []) [] = some c ∧
          info.entity_slug = c ++ OTHER_ENTITY_SUFFIX) ∨
       (deduceFoundEntity ["m", "Stuff", "XYZq"] ["m"]
          (fetch_deduction_maps [] []) [] = none ∧
        deduceFallbackCategory ["m", "Stuff", "XYZq"] ["m"]
          (fetch_deduction_maps [] []) [] = none ∧
        info.entity_slug = "characters" ++ OTHER_ENTITY_SUFFIX)) :=
  C6_deduction_total ["m", "Stuff", "XYZq"] ["m"] (fetch_deduction_maps [] []) []
    (by decide)

theorem lookup_filterNe {β : Type} (k k' : String) (m : List (String × β))
    (h : k' ≠ k) :
    (m.filter (fun kv => !(kv.1 == k))).lookup k' = m.lookup k' := by
  induction m with
  | nil => rfl
  | cons a rest ih =>
    obtain ⟨ka, va⟩ := a
    by_cases hk : ka = k
    · subst hk
      have hne : (k' == ka) = false := by simp [h]
      simp [List.filter_cons, List.lookup, hne, ih]
    · have hkeep : (!(ka == k)) = true := by simp [hk]
      rw [List.filter_cons, if_pos hkeep]
      by_cases hk2 : k' = ka
      · subst hk2; simp [List.lookup]
      · have hne : (k' == ka) = false := by simp [hk2]
        simp [List.lookup, hne, ih]

theorem lookup_hmInsert_self {β : Type} (k : String) (v : β)
    (m : List (String × β)) : (hmInsert k v m).lookup k = some v := by
  simp [hmInsert, List.lookup]

theorem lookup_hmInsert_ne {β : Type} (k k' : String) (v : β)
    (m : List (String × β)) (h : k' ≠ k) :
    (hmInsert k v m).lookup k' = m.lookup k' := by
  have hne : (k' == k) = false := by simp [h]
  simp only [hmInsert, List.lookup, hne]
  exact lookup_filterNe k k' m h

theorem entLoop_slugToId_isSome_preserved (its : List (Int × String))
    (acc : EntAcc) (rows : List EntityRow) (k : String)
    (h : ((acc.slugToId.lookup k).isSome) = true) :
    (((entLoop its acc rows).slugToId.lookup k).isSome) = true := by
  induction rows generalizing acc with
  | nil => exact h
  | cons r rest ih =>
    refine ih (entStep its acc r) ?_
    show (((hmInsert r.slug r.id acc.slugToId).lookup k).isSome) = true
    by_cases hk : k = r.slug
    · subst hk; rw [lookup_hmInsert_self]; rfl
    · rw [lookup_hmInsert_ne _ _ _ _ hk]; exact h

theorem entLoop_slugToId_mem (its : List (Int × String)) (acc : EntAcc)
    (rows : List EntityRow) (e : EntityRow) (he : e ∈ rows) :
    (((entLoop its acc rows).slugToId.lookup e.slug).isSome) = true := by
  induction rows generalizing acc with
  | nil => exact absurd he (List.not_mem_nil e)
  | cons r rest ih =>
    by_cases hmem : e ∈ rest
    · exact ih (entStep its acc r) hmem
    · have hr : e = r := (List.mem_cons.mp he).resolve_right hmem
      subst hr
      refine entLoop_slugToId_isSome_preserved its _ rest e.slug ?_
      show (((hmInsert e.slug e.id acc.slugToId).lookup e.slug).isSome) = true
      rw [lookup_hmInsert_self]; rfl

theorem entLoop_slugToId_absent (its : List (Int × String)) (acc : EntAcc)
    (rows : List EntityRow) (k : String) (h : ∀ r ∈ rows, r.slug ≠ k) :
    (entLoop its acc rows).slugToId.lookup k = acc.slugToId.lookup k := by
  induction rows generalizing acc with
  | nil => rfl
  | cons r rest ih =>
    rw [show entLoop its acc (r :: rest) = entLoop its (entStep its acc r) rest
      from rfl]
    rw [ih _ (fun r2 h2 => h r2 (List.mem_cons_of_mem r h2))]
    show (hmInsert r.slug r.id acc.slugToId).lookup k = _
    exact lookup_hmInsert_ne _ _ _ _
      (fun hc => h r (List.mem_cons_self r rest) hc.symm)

theorem entLoop_nameMap_preserved (its : List (Int × String)) (acc : EntAcc)
    (rows : List EntityRow) (k : String)
    (h : ∀ r ∈ rows, rustLower r.name ≠ k) :
    (entLoop its acc rows).lowerNameToSlug.lookup k =
      acc.lowerNameToSlug.lookup k := by
  induction rows generalizing acc with
  | nil => rfl
  | cons r rest ih =>
    rw [show entLoop its acc (r :: rest) = entLoop its (entStep its acc r) rest
      from rfl]
    rw [ih _ (fun r2 h2 => h r2 (List.mem_cons_of_mem r h2))]
    show (hmInsert (rustLower r.name) r.slug acc.lowerNameToSlug).lookup k = _
    exact lookup_hmInsert_ne _ _ _ _
      (fun hc => h r (List.mem_cons_self r rest) hc.symm)

theorem entLoop_nameMap_mem (its : List (Int × String)) (acc : EntAcc)
    (rows : List EntityRow) (e : EntityRow) (he : e ∈ rows)
    (huniq : ∀ r ∈ rows, r ≠ e → rustLower r.name ≠ rustLower e.name) :
    (entLoop its acc rows).lowerNameToSlug.lookup (rustLower e.name) =
      some e.slug := by
  induction rows generalizing acc with
  | nil => exact absurd he (List.not_mem_nil e)
  | cons r rest ih =>
    by_cases hmem : e ∈ rest
    · exact ih (entStep its acc r) hmem
        (fun r2 h2 => huniq r2 (List.mem_cons_of_mem r h2))
    · have hr : e = r := (List.mem_cons.mp he).resolve_right hmem
      subst hr
      rw [show entLoop its acc (e :: rest) = entLoop its (entStep its acc e) rest
        from rfl]
      rw [entLoop_nameMap_preserved its _ rest (rustLower e.name) ?_]
      · show (hmInsert (rustLower e.name) e.slug acc.lowerNameToSlug).lookup
            (rustLower e.name) = some e.slug
        exact lookup_hmInsert_self _ _ _
      · intro r2 h2
        exact huniq r2 (List.mem_cons_of_mem e h2)
          (fun hc => hmem (hc ▸ h2))

/-- C5, counterexample: in an index where the full name of one entity
(`Beta`, slug `b`) equals the slug of another entity, matching the full name
returns the other entity's slug via strategy 1, so matcher self-correctness
fails as stated. -/
theorem C5_counterexample :
    (⟨"b", 1, "Beta", 10⟩ : EntityRow) ∈ c5Ents ∧
    find_entity_slug_from_hint "Beta" c5Maps = some "Beta" ∧
    some ("Beta" : String) ≠ some ("b" : String) := by
  decide

/-- C5, amended: for every entity in the taxonomy index with a non-empty
slug, matching the slug returns that slug; and matching an entity's full
name N returns that entity's slug provided N is non-empty, no entity's slug
equals N, and no other entity shares the same lowercased full name. -/
theorem C5_matcher_self_correct (cats : List CategoryRow)
    (ents : List EntityRow) (e : EntityRow) (he : e ∈ ents) :
    (e.slug ≠ "" →
      find_entity_slug_from_hint e.slug (fetch_deduction_maps cats ents) =
        some e.slug) ∧
    (e.name ≠ "" →
      (∀ r ∈ ents, r.slug ≠ e.name) →
      (∀ r ∈ ents, r ≠ e → rustLower r.name ≠ rustLower e.name) →
      find_entity_slug_from_hint e.name (fetch_deduction_maps cats ents) =
        some e.slug) := by
  constructor
  · intro hne
    have hempty : ¬(e.slug.isEmpty = true) := by
      simp [String.isEmpty_iff, hne]
    unfold find_entity_slug_from_hint
    rw [if_neg hempty]
    have h1 : strat1 e.slug (fetch_deduction_maps cats ents) = some e.slug := by
      unfold strat1
      rw [if_pos ?_]
      show (((fetch_deduction_maps cats ents).entity_slug_to_id.lookup
        e.slug).isSome) = true
      simp only [fetch_deduction_maps]
      exact entLoop_slugToId_mem _ _ ents e he
    rw [h1]
    rfl
  · intro hne hslug huniq
    have hempty : ¬(e.name.isEmpty = true) := by
      simp [String.isEmpty_iff, hne]
    unfold find_entity_slug_from_hint
    rw [if_neg hempty]
    have h1 : strat1 e.name (fetch_deduction_maps cats ents) = none := by
      unfold strat1
      rw [if_neg ?_]
      show ¬((((fetch_deduction_maps cats ents).entity_slug_to_id.lookup
        e.name).isSome) = true)
      simp only [fetch_deduction_maps]
      rw [entLoop_slugToId_absent _ _ ents e.name
        (fun r hr => hslug r hr)]
      simp
    have h2 : strat2 (rustLower e.name) (fetch_deduction_maps cats ents) =
        some e.slug := by
      unfold strat2
      simp only [fetch_deduction_maps]
      exact entLoop_nameMap_mem _ _ ents e he huniq
    rw [h1]
    simp only [h2, firstSome]

/-- C5, witness: a well-formed two-entity index on which both parts of the
amended self-correctness theorem apply. -/
theorem C5_matcher_self_correct_witness :
    (("amber-x" : String) ≠ "" →
      find_entity_slug_from_hint "amber-x"
          (fetch_deduction_maps [⟨"cat", 10, "Cat"⟩]
            [⟨"amber-x", 1, "Amber", 10⟩, ⟨"lisa-x", 2, "Lisa", 10⟩]) =
        some "amber-x") ∧
    (("Amber" : String) ≠ "" →
      (∀ r ∈ [(⟨"amber-x", 1, "Amber", 10⟩ : EntityRow), ⟨"lisa-x", 2, "Lisa", 10⟩],
        r.slug ≠ "Amber") →
      (∀ r ∈ [(⟨"amber-x", 1, "Amber", 10⟩ : EntityRow), ⟨"lisa-x", 2, "Lisa", 10⟩],
        r ≠ ⟨"amber-x", 1, "Amber", 10⟩ →
        rustLower r.name ≠ rustLower "Amber") →
      find_entity_slug_from_hint "Amber"
          (fetch_deduction_maps [⟨"cat", 10, "Cat"⟩]
            [⟨"amber-x", 1, "Amber", 10⟩, ⟨"lisa-x", 2, "Lisa", 10⟩]) =
        some "amber-x") :=
  C5_matcher_self_correct [⟨"cat", 10, "Cat"⟩]
    [⟨"amber-x", 1, "Amber", 10⟩, ⟨"lisa-x", 2, "Lisa", 10⟩]
    ⟨"amber-x", 1, "Amber", 10⟩ (by decide)

theorem pairwise_key_inj {α β : Type} (key : α → β) (l : List α)
    (hp : l.Pairwise (fun a b => key a ≠ key b)) (a b : α)
    (ha : a ∈ l) (hb : b ∈ l) (hk : key a = key b) : a = b := by
  induction l with
  | nil => cases ha
  | cons x rest ih =>
    rcases List.pairwise_cons.mp hp with ⟨hx, hrest⟩
    rcases List.mem_cons.mp ha with rfl | ha2
    · rcases List.mem_cons.mp hb with rfl | hb2
      · rfl
      · exact absurd hk (hx b hb2)
    · rcases List.mem_cons.mp hb with rfl | hb2
      · exact absurd hk.symm (hx a ha2)
      · exact ih hrest ha2 hb2

theorem step_catalog_mono (st : ScanState) (f : Int × String) (r : AssetRow)
    (h : r ∈ st.catalog) : r ∈ (scanFolderStep st f).catalog := by
  unfold scanFolderStep
  cases hf : st.catalog.find? (fun x => x.entity_id == f.1 && x.folder_name == f.2) with
  | some x => exact h
  | none =>
    by_cases ha : (st.catalog.any (fun x => x.folder_name == f.2)) = true
    · rw [if_pos ha]; exact h
    · rw [if_neg ha]; exact List.mem_append_left _ h

theorem loop_catalog_mono (st : ScanState) (fs : List (Int × String))
    (r : AssetRow) (h : r ∈ st.catalog) : r ∈ (scanLoop st fs).catalog := by
  induction fs generalizing st with
  | nil => exact h
  | cons f rest ih => exact ih _ (step_catalog_mono st f r h)

theorem step_found_mono (st : ScanState) (f : Int × String) (i : Int)
    (h : i ∈ st.found) : i ∈ (scanFolderStep st f).found := by
  unfold scanFolderStep
  cases hf : st.catalog.find? (fun x => x.entity_id == f.1 && x.folder_name == f.2) with
  | some x => exact List.mem_cons_of_mem _ h
  | none =>
    by_cases ha : (st.catalog.any (fun x => x.folder_name == f.2)) = true
    · rw [if_pos ha]; exact h
    · rw [if_neg ha]; exact List.mem_cons_of_mem _ h

theorem loop_found_mono (st : ScanState) (fs : List (Int × String)) (i : Int)
    (h : i ∈ st.found) : i ∈ (scanLoop st fs).found := by
  induction fs generalizing st with
  | nil => exact h
  | cons f rest ih => exact ih _ (step_found_mono st f i h)

theorem step_skipped_mono (st : ScanState) (f : Int × String) :
    st.skipped ≤ (scanFolderStep st f).skipped := by
  unfold scanFolderStep
  cases hf : st.catalog.find? (fun x => x.entity_id == f.1 && x.folder_name == f.2) with
  | some x => exact Nat.le_refl _
  | none =>
    by_cases ha : (st.catalog.any (fun x => x.folder_name == f.2)) = true
    · rw [if_pos ha]; exact Nat.le_succ _
    · rw [if_neg ha]

theorem loop_skipped_mono (st : ScanState) (fs : List (Int × String)) :
    st.skipped ≤ (scanLoop st fs).skipped := by
  induction fs generalizing st with
  | nil => exact Nat.le_refl _
  | cons f rest ih => exact Nat.le_trans (step_skipped_mono st f) (ih _)

/-- Catalog invariant maintained by the walk: every id is below the next
fresh id, ids are pairwise distinct, folder names are pairwise distinct (the
schema's UNIQUE constraint). -/
def ScanInv (st : ScanState) : Prop :=
  (∀ r ∈ st.catalog, r.id < st.nextId) ∧
  st.catalog.Pairwise (fun a b => a.id ≠ b.id) ∧
  st.catalog.Pairwise (fun a b => a.folder_name ≠ b.folder_name)

theorem step_inv (st : ScanState) (f : Int × String) (h : ScanInv st) :
    ScanInv (scanFolderStep st f) := by
  obtain ⟨hlt, hid, hfol⟩ := h
  unfold scanFolderStep
  cases hf : st.catalog.find? (fun x => x.entity_id == f.1 && x.folder_name == f.2) with
  | some x => exact ⟨hlt, hid, hfol⟩
  | none =>
    by_cases ha : (st.catalog.any (fun x => x.folder_name == f.2)) = true
    · rw [if_pos ha]; exact ⟨hlt, hid, hfol⟩
    · rw [if_neg ha]
      have hnone : ∀ r ∈ st.catalog, r.folder_name ≠ f.2 := by
        intro r hr hc
        exact ha (List.any_eq_true.mpr ⟨r, hr, beq_iff_eq.mpr hc⟩)
      refine ⟨?_, ?_, ?_⟩
      · intro r hr
        rcases List.mem_append.mp hr with h1 | h1
        · have := hlt r h1
          show r.id < st.nextId + 1
          omega
        · rw [List.mem_singleton.mp h1]
          show st.nextId < st.nextId + 1
          omega
      · rw [List.pairwise_append]
        refine ⟨hid, List.pairwise_singleton _ _, ?_⟩
        intro a ha b hb
        rw [List.mem_singleton.mp hb]
        have := hlt a ha
        show a.id ≠ st.nextId
        omega
      · rw [List.pairwise_append]
        refine ⟨hfol, List.pairwise_singleton _ _, ?_⟩
        intro a ha b hb
        rw [List.mem_singleton.mp hb]
        exact hnone a ha

theorem loop_inv (st : ScanState) (fs : List (Int × String)) (h : ScanInv st) :
    ScanInv (scanLoop st fs) := by
  induction fs generalizing st with
  | nil => exact h
  | cons f rest ih => exact ih _ (step_inv st f h)

theorem step_pairwise_fol (st : ScanState) (f : Int × String)
    (hfol : st.catalog.Pairwise (fun a b => a.folder_name ≠ b.folder_name)) :
    (scanFolderStep st f).catalog.Pairwise
      (fun a b => a.folder_name ≠ b.folder_name) := by
  unfold scanFolderStep
  cases hf : st.catalog.find? (fun x => x.entity_id == f.1 && x.folder_name == f.2) with
  | some x => exact hfol
  | none =>
    by_cases ha : (st.catalog.any (fun x => x.folder_name == f.2)) = true
    · rw [if_pos ha]; exact hfol
    · rw [if_neg ha]
      rw [List.pairwise_append]
      refine ⟨hfol, List.pairwise_singleton _ _, ?_⟩
      intro a haa b hb
      rw [List.mem_singleton.mp hb]
      intro hc
      exact ha (List.any_eq_true.mpr ⟨a, haa, beq_iff_eq.mpr hc⟩)

theorem step_found_src (st : ScanState) (f : Int × String) (i : Int)
    (h : i ∈ (scanFolderStep st f).found) :
    i ∈ st.found ∨ ∃ r ∈ (scanFolderStep st f).catalog,
      r.id = i ∧ r.entity_id = f.1 ∧ r.folder_name = f.2 := by
  unfold scanFolderStep at h ⊢
  cases hf : st.catalog.find? (fun x => x.entity_id == f.1 && x.folder_name == f.2) with
  | some x =>
    rw [hf] at h
    rcases List.mem_cons.mp h with rfl | h2
    · right
      have hp := List.find?_some hf
      simp only [Bool.and_eq_true, beq_iff_eq] at hp
      exact ⟨x, List.mem_of_find?_eq_some hf, rfl, hp.1, hp.2⟩
    · exact Or.inl h2
  | none =>
    rw [hf] at h
    by_cases ha : (st.catalog.any (fun x => x.folder_name == f.2)) = true
    · rw [if_pos ha] at h; exact Or.inl h
    · rw [if_neg ha] at h ⊢
      rcases List.mem_cons.mp h with rfl | h2
      · right
        exact ⟨⟨st.nextId, f.1, f.2⟩,
          List.mem_append_right _ (List.mem_singleton.mpr rfl), rfl, rfl, rfl⟩
      · exact Or.inl h2

theorem loop_found_src (st : ScanState) (fs : List (Int × String)) (i : Int)
    (h : i ∈ (scanLoop st fs).found) :
    i ∈ st.found ∨ ∃ f ∈ fs, ∃ r ∈ (scanLoop st fs).catalog,
      r.id = i ∧ r.entity_id = f.1 ∧ r.folder_name = f.2 := by
  induction fs generalizing st with
  | nil => exact Or.inl h
  | cons f rest ih =>
    rcases ih (scanFolderStep st f) h with h1 | ⟨g, hg, r, hr, he⟩
    · rcases step_found_src st f i h1 with h2 | ⟨r, hr, he⟩
      · exact Or.inl h2
      · exact Or.inr ⟨f, List.mem_cons_self f rest, r,
          loop_catalog_mono _ rest r hr, he⟩
    · exact Or.inr ⟨g, List.mem_cons_of_mem f hg, r, hr, he⟩

theorem step_catalog_src (st : ScanState) (f : Int × String) (r : AssetRow)
    (h : r ∈ (scanFolderStep st f).catalog) :
    r ∈ st.catalog ∨ (r.id ∈ (scanFolderStep st f).found ∧
      r.entity_id = f.1 ∧ r.folder_name = f.2) := by
  unfold scanFolderStep at h ⊢
  cases hf : st.catalog.find? (fun x => x.entity_id == f.1 && x.folder_name == f.2) with
  | some x => rw [hf] at h; exact Or.inl h
  | none =>
    rw [hf] at h
    by_cases ha : (st.catalog.any (fun x => x.folder_name == f.2)) = true
    · rw [if_pos ha] at h; exact Or.inl h
    · rw [if_neg ha] at h ⊢
      rcases List.mem_append.mp h with h1 | h1
      · exact Or.inl h1
      · right
        rw [List.mem_singleton.mp h1]
        exact ⟨List.mem_cons_self _ _, rfl, rfl⟩

theorem loop_catalog_src (st : ScanState) (fs : List (Int × String))
    (r : AssetRow) (h : r ∈ (scanLoop st fs).catalog) :
    r ∈ st.catalog ∨ (r.id ∈ (scanLoop st fs).found ∧
      ∃ f ∈ fs, r.entity_id = f.1 ∧ r.folder_name = f.2) := by
  induction fs generalizing st with
  | nil => exact Or.inl h
  | cons f rest ih =>
    rcases ih (scanFolderStep st f) h with h1 | ⟨hfound, g, hg, he⟩
    · rcases step_catalog_src st f r h1 with h2 | ⟨hfound, he⟩
      · exact Or.inl h2
      · exact Or.inr ⟨loop_found_mono _ rest r.id hfound,
          f, List.mem_cons_self f rest, he⟩
    · exact Or.inr ⟨hfound, g, List.mem_cons_of_mem f hg, he⟩

theorem step_no_skip (st : ScanState) (f : Int × String)
    (h : (scanFolderStep st f).skipped = st.skipped) :
    ∃ r ∈ (scanFolderStep st f).catalog,
      r.entity_id = f.1 ∧ r.folder_name = f.2 ∧
      r.id ∈ (scanFolderStep st f).found := by
  unfold scanFolderStep at h ⊢
  cases hf : st.catalog.find? (fun x => x.entity_id == f.1 && x.folder_name == f.2) with
  | some x =>
    have hp := List.find?_some hf
    simp only [Bool.and_eq_true, beq_iff_eq] at hp
    exact ⟨x, List.mem_of_find?_eq_some hf, hp.1, hp.2, List.mem_cons_self _ _⟩
  | none =>
    rw [hf] at h
    by_cases ha : (st.catalog.any (fun x => x.folder_name == f.2)) = true
    · rw [if_pos ha] at h
      have h2 : st.skipped + 1 = st.skipped := h
      omega
    · rw [if_neg ha]
      exact ⟨⟨st.nextId, f.1, f.2⟩,
        List.mem_append_right _ (List.mem_singleton.mpr rfl), rfl, rfl,
        List.mem_cons_self _ _⟩

theorem loop_coverage (st : ScanState) (fs : List (Int × String))
    (hskip : (scanLoop st fs).skipped = st.skipped) :
    ∀ f ∈ fs, ∃ r ∈ (scanLoop st fs).catalog,
      r.entity_id = f.1 ∧ r.folder_name = f.2 ∧
      r.id ∈ (scanLoop st fs).found := by
  induction fs generalizing st with
  | nil => intro f hf; cases hf
  | cons f0 rest ih =>
    have hstep : (scanFolderStep st f0).skipped = st.skipped := by
      have h1 := step_skipped_mono st f0
      have h2 := loop_skipped_mono (scanFolderStep st f0) rest
      have h3 : (scanLoop (scanFolderStep st f0) rest).skipped = st.skipped := hskip
      omega
    intro f hf
    rcases List.mem_cons.mp hf with rfl | hf2
    · obtain ⟨r, hr, u, v, hfound⟩ := step_no_skip st f hstep
      exact ⟨r, loop_catalog_mono _ rest r hr, u, v,
        loop_found_mono _ rest r.id hfound⟩
    · have hrest : (scanLoop (scanFolderStep st f0) rest).skipped =
          (scanFolderStep st f0).skipped := by
        have h3 : (scanLoop (scanFolderStep st f0) rest).skipped = st.skipped := hskip
        omega
      exact ih (scanFolderStep st f0) hrest f hf2

theorem loop_inert (st : ScanState) (fs : List (Int × String))
    (H : ∀ f ∈ fs, ∃ r ∈ st.catalog, r.entity_id = f.1 ∧ r.folder_name = f.2) :
    (scanLoop st fs).catalog = st.catalog ∧
    (scanLoop st fs).inserted = st.inserted ∧
    (scanLoop st fs).skipped = st.skipped ∧
    (scanLoop st fs).nextId = st.nextId := by
  induction fs generalizing st with
  | nil => exact ⟨rfl, rfl, rfl, rfl⟩
  | cons f rest ih =>
    obtain ⟨r, hr, h1, h2⟩ := H f (List.mem_cons_self f rest)
    have hsome : (st.catalog.find?
        (fun x => x.entity_id == f.1 && x.folder_name == f.2)).isSome := by
      rw [List.find?_isSome]
      exact ⟨r, hr, by simp [h1, h2]⟩
    obtain ⟨x, hx⟩ := Option.isSome_iff_exists.mp hsome
    have hstep : scanFolderStep st f = { st with found := x.id :: st.found } := by
      unfold scanFolderStep
      rw [hx]
    have hH2 : ∀ g ∈ rest, ∃ r2 ∈ ({ st with found := x.id :: st.found } :
        ScanState).catalog, r2.entity_id = g.1 ∧ r2.folder_name = g.2 := by
      intro g hg
      exact H g (List.mem_cons_of_mem f hg)
    have hmain := ih { st with found := x.id :: st.found } hH2
    have hl : scanLoop st (f :: rest) =
        scanLoop { st with found := x.id :: st.found } rest := by
      show scanLoop (scanFolderStep st f) rest = _
      rw [hstep]
    rw [hl]
    exact hmain

theorem loop_marks (st : ScanState) (fs : List (Int × String)) (r : AssetRow)
    (f : Int × String) (hr : r ∈ st.catalog)
    (hfol : st.catalog.Pairwise (fun a b => a.folder_name ≠ b.folder_name))
    (hf : f ∈ fs) (h1 : f.1 = r.entity_id) (h2 : f.2 = r.folder_name) :
    r.id ∈ (scanLoop st fs).found := by
  induction fs generalizing st with
  | nil => cases hf
  | cons f0 rest ih =>
    rcases List.mem_cons.mp hf with rfl | hf2
    · have hsome : (st.catalog.find?
          (fun x => x.entity_id == f.1 && x.folder_name == f.2)).isSome := by
        rw [List.find?_isSome]
        exact ⟨r, hr, by simp [h1.symm, h2.symm]⟩
      obtain ⟨x, hx⟩ := Option.isSome_iff_exists.mp hsome
      have hp := List.find?_some hx
      simp only [Bool.and_eq_true, beq_iff_eq] at hp
      have hxr : x = r := by
        refine pairwise_key_inj (fun a => a.folder_name) st.catalog hfol x r
          (List.mem_of_find?_eq_some hx) hr ?_
        show x.folder_name = r.folder_name
        rw [hp.2]
        exact h2
      have hfound : r.id ∈ (scanFolderStep st f).found := by
        unfold scanFolderStep
        rw [hx, hxr]
        exact List.mem_cons_self _ _
      exact loop_found_mono _ rest r.id hfound
    · exact ih (scanFolderStep st f0) (step_catalog_mono st f0 r hr)
        (step_pairwise_fol st f0 hfol) hf2

theorem contains_iff_mem {α : Type} [BEq α] [LawfulBEq α] {a : α} {l : List α} :
    l.contains a = true ↔ a ∈ l := by
  rw [List.contains_iff_exists_mem_beq]
  constructor
  · rintro ⟨b, hb, hab⟩
    exact (eq_of_beq hab) ▸ hb
  · intro h
    exact ⟨a, h, by simp⟩

theorem mem_scan_catalog (C : List AssetRow) (fs : List (Int × String))
    (n : Int) (r : AssetRow) :
    r ∈ (scan_mods_directory C fs n).catalog ↔
      r ∈ (scanLoop ⟨C, [], 0, 0, n⟩ fs).catalog ∧
      (r.id ∈ C.map (fun a => a.id) →
        r.id ∈ (scanLoop ⟨C, [], 0, 0, n⟩ fs).found) := by
  show r ∈ (scanLoop ⟨C, [], 0, 0, n⟩ fs).catalog.filter _ ↔ _
  rw [List.mem_filter]
  refine and_congr Iff.rfl ?_
  simp only [Bool.not_eq_true', Bool.eq_false_iff, ne_eq, contains_iff_mem]
  constructor
  · intro hnp hin
    by_contra hnf
    refine hnp (List.mem_filter.mpr ⟨hin, ?_⟩)
    simp only [Bool.not_eq_true', Bool.eq_false_iff, ne_eq, contains_iff_mem]
    exact hnf
  · intro himp hmem
    rcases List.mem_filter.mp hmem with ⟨hin, hpred⟩
    simp only [Bool.not_eq_true', Bool.eq_false_iff, ne_eq, contains_iff_mem] at hpred
    exact hpred (himp hin)

/-- C1, counterexample: start from a catalog holding the scanned path under a
different entity.  The first scan's insert hits the uniqueness constraint and
is skipped, the old row is pruned, and the second scan then performs an
insertion, so the asset sets after the two scans differ. -/
theorem C1_counterexample :
    (scan_mods_directory
        (scan_mods_directory [⟨1, 20, "CharA/mod1"⟩] [((10 : Int), "CharA/mod1")] 2).catalog
        [((10 : Int), "CharA/mod1")] 2).inserted = 1 ∧
    (scan_mods_directory
        (scan_mods_directory [⟨1, 20, "CharA/mod1"⟩] [((10 : Int), "CharA/mod1")] 2).catalog
        [((10 : Int), "CharA/mod1")] 2).catalog ≠
      (scan_mods_directory [⟨1, 20, "CharA/mod1"⟩] [((10 : Int), "CharA/mod1")] 2).catalog := by
  decide

/-- C1, amended: for every starting catalog with distinct row ids, unique
folder names and a fresh next row id — the schema invariants — and every disk
state, provided the first scan encounters no uniqueness-violation skip, the
second scan over the unchanged disk performs no insertions, prunes nothing,
and returns the asset table of the first scan unchanged, with folder names
still pairwise distinct (no duplicate rows). -/
theorem C1_scan_idempotent (C : List AssetRow) (folders : List (Int × String))
    (n1 n2 : Int)
    (hid : C.Pairwise (fun a b => a.id ≠ b.id))
    (hfol : C.Pairwise (fun a b => a.folder_name ≠ b.folder_name))
    (hfresh : ∀ r ∈ C, r.id < n1)
    (hskip : (scan_mods_directory C folders n1).skipped = 0) :
    (scan_mods_directory (scan_mods_directory C folders n1).catalog folders
      n2).inserted = 0 ∧
    (scan_mods_directory (scan_mods_directory C folders n1).catalog folders
      n2).prunedIds = [] ∧
    (scan_mods_directory (scan_mods_directory C folders n1).catalog folders
      n2).catalog = (scan_mods_directory C folders n1).catalog ∧
    (scan_mods_directory (scan_mods_directory C folders n1).catalog folders
      n2).catalog.Pairwise (fun a b => a.folder_name ≠ b.folder_name) := by
  have hinv1 : ScanInv (scanLoop ⟨C, [], 0, 0, n1⟩ folders) :=
    loop_inv _ folders ⟨hfresh, hid, hfol⟩
  have hsk1 : (scanLoop ⟨C, [], 0, 0, n1⟩ folders).skipped = 0 := hskip
  have hF1 : ∀ f ∈ folders, ∃ r ∈ (scan_mods_directory C folders n1).catalog,
      r.entity_id = f.1 ∧ r.folder_name = f.2 := by
    intro f hf
    obtain ⟨r, hr, u, v, hfound⟩ :=
      loop_coverage ⟨C, [], 0, 0, n1⟩ folders hsk1 f hf
    refine ⟨r, ?_, u, v⟩
    rw [mem_scan_catalog]
    exact ⟨hr, fun _ => hfound⟩
  have hF2 : ∀ r ∈ (scan_mods_directory C folders n1).catalog,
      ∃ f ∈ folders, r.entity_id = f.1 ∧ r.folder_name = f.2 := by
    intro r hr
    rw [mem_scan_catalog] at hr
    obtain ⟨hmem, himp⟩ := hr
    rcases loop_catalog_src _ folders r hmem with hC | ⟨hfound, f, hf, he⟩
    · have hin : r.id ∈ C.map (fun a => a.id) := List.mem_map.mpr ⟨r, hC, rfl⟩
      have hfound := himp hin
      rcases loop_found_src _ folders r.id hfound with h0 | ⟨f, hf, x, hx, hxid, hxe, hxf⟩
      · cases h0
      · have hxr : x = r :=
          pairwise_key_inj (fun a => a.id) _ hinv1.2.1 x r hx hmem hxid
        rw [hxr] at hxe hxf
        exact ⟨f, hf, hxe, hxf⟩
    · exact ⟨f, hf, he⟩
  have hDfol : (scan_mods_directory C folders n1).catalog.Pairwise
      (fun a b => a.folder_name ≠ b.folder_name) :=
    List.Pairwise.sublist (List.filter_sublist _) hinv1.2.2
  obtain ⟨hcat2, hins2, _, _⟩ :=
    loop_inert ⟨(scan_mods_directory C folders n1).catalog, [], 0, 0, n2⟩
      folders hF1
  have hfound2 : ∀ r ∈ (scan_mods_directory C folders n1).catalog,
      r.id ∈ (scanLoop
        ⟨(scan_mods_directory C folders n1).catalog, [], 0, 0, n2⟩
        folders).found := by
    intro r hr
    obtain ⟨f, hf, u, v⟩ := hF2 r hr
    exact loop_marks _ folders r f hr hDfol hf u.symm v.symm
  have hprEmpty : (scan_mods_directory
      (scan_mods_directory C folders n1).catalog folders n2).prunedIds = [] := by
    show ((scan_mods_directory C folders n1).catalog.map (fun a => a.id)).filter
      _ = []
    rw [List.filter_eq_nil_iff]
    intro i hi
    rcases List.mem_map.mp hi with ⟨r, hr, rfl⟩
    simp only [Bool.not_eq_true', Bool.eq_false_iff, ne_eq, contains_iff_mem]
    intro hc
    exact hc (hfound2 r hr)
  have hcatEq : (scan_mods_directory
      (scan_mods_directory C folders n1).catalog folders n2).catalog =
      (scan_mods_directory C folders n1).catalog := by
    show (scanLoop ⟨(scan_mods_directory C folders n1).catalog, [], 0, 0, n2⟩
      folders).catalog.filter _ = _
    rw [hcat2]
    have hnil : ((scan_mods_directory C folders n1).catalog.map
        (fun a => a.id)).filter
        (fun i => !((scanLoop
          ⟨(scan_mods_directory C folders n1).catalog, [], 0, 0, n2⟩
          folders).found.contains i)) = [] := hprEmpty
    rw [hnil]
    refine List.filter_eq_self.mpr ?_
    intro a _
    rfl
  refine ⟨?_, hprEmpty, hcatEq, by rw [hcatEq]; exact hDfol⟩
  show (scanLoop ⟨(scan_mods_directory C folders n1).catalog, [], 0, 0, n2⟩
    folders).inserted = 0
  rw [hins2]

/-- C1, witness: a concrete catalog and disk state with no uniqueness
violation; the second scan changes nothing. -/
theorem C1_scan_idempotent_witness :
    (scan_mods_directory
      (scan_mods_directory [⟨1, 5, "w/e/m"⟩] [((5 : Int), "w/e/m")] 2).catalog
      [((5 : Int), "w/e/m")] 3).inserted = 0 ∧
    (scan_mods_directory
      (scan_mods_directory [⟨1, 5, "w/e/m"⟩] [((5 : Int), "w/e/m")] 2).catalog
      [((5 : Int), "w/e/m")] 3).prunedIds = [] ∧
    (scan_mods_directory
      (scan_mods_directory [⟨1, 5, "w/e/m"⟩] [((5 : Int), "w/e/m")] 2).catalog
      [((5 : Int), "w/e/m")] 3).catalog =
      (scan_mods_directory [⟨1, 5, "w/e/m"⟩] [((5 : Int), "w/e/m")] 2).catalog ∧
    (scan_mods_directory
      (scan_mods_directory [⟨1, 5, "w/e/m"⟩] [((5 : Int), "w/e/m")] 2).catalog
      [((5 : Int), "w/e/m")] 3).catalog.Pairwise
      (fun a b => a.folder_name ≠ b.folder_name) :=
  C1_scan_idempotent [⟨1, 5, "w/e/m"⟩] [((5 : Int), "w/e/m")] 2 3
    (by decide) (by decide) (by decide) (by decide)

/-- C2, counterexample: a row whose on-disk folder still exists (its clean
relative path is scanned) is nevertheless deleted by the scan, because the
folder deduces to a different entity and the row is never marked found. -/
theorem C2_counterexample :
    ((10 : Int), "CharA/mod1") ∈ [((10 : Int), "CharA/mod1")] ∧
    (⟨1, 20, "CharA/mod1"⟩ : AssetRow) ∈ [(⟨1, 20, "CharA/mod1"⟩ : AssetRow)] ∧
    (scan_mods_directory [⟨1, 20, "CharA/mod1"⟩] [((10 : Int), "CharA/mod1")]
      2).catalog = [] := by
  decide

/-- C2, amended: for a catalog satisfying the schema invariants, (a) every
pre-existing row whose id is never marked found during the walk is absent
after the scan; (b) a row whose clean relative path no folder on disk
produces — the asset's folder was deleted in both forms — is absent after the
scan; (c) a row whose folder still exists on disk and deduces to the row's
own entity survives the scan untouched.  (Without the same-entity condition
of (c) the row can be pruned, as the counterexample shows.) -/
theorem C2_pruning_precision (C : List AssetRow)
    (folders : List (Int × String)) (n : Int)
    (hid : C.Pairwise (fun a b => a.id ≠ b.id))
    (hfol : C.Pairwise (fun a b => a.folder_name ≠ b.folder_name))
    (hfresh : ∀ r ∈ C, r.id < n) :
    (∀ r ∈ C, r.id ∉ (scanLoop ⟨C, [], 0, 0, n⟩ folders).found →
      r ∉ (scan_mods_directory C folders n).catalog) ∧
    (∀ r ∈ C, (∀ f ∈ folders, f.2 ≠ r.folder_name) →
      r ∉ (scan_mods_directory C folders n).catalog) ∧
    (∀ r ∈ C, (∃ f ∈ folders, f.1 = r.entity_id ∧ f.2 = r.folder_name) →
      r ∈ (scan_mods_directory C folders n).catalog) := by
  have hinv : ScanInv (scanLoop ⟨C, [], 0, 0, n⟩ folders) :=
    loop_inv _ folders ⟨hfresh, hid, hfol⟩
  have hpartA : ∀ r ∈ C, r.id ∉ (scanLoop ⟨C, [], 0, 0, n⟩ folders).found →
      r ∉ (scan_mods_directory C folders n).catalog := by
    intro r hrC hnf hmem
    rw [mem_scan_catalog] at hmem
    exact hnf (hmem.2 (List.mem_map.mpr ⟨r, hrC, rfl⟩))
  refine ⟨hpartA, ?_, ?_⟩
  · intro r hrC hgone
    refine hpartA r hrC ?_
    intro hfound
    rcases loop_found_src _ folders r.id hfound with h0 | ⟨f, hf, x, hx, hxid, _, hxf⟩
    · cases h0
    · have hxr : x = r := pairwise_key_inj (fun a => a.id) _ hinv.2.1 x r hx
        (loop_catalog_mono _ folders r hrC) hxid
      rw [hxr] at hxf
      exact hgone f hf hxf.symm
  · intro r hrC ⟨f, hf, u, v⟩
    rw [mem_scan_catalog]
    refine ⟨loop_catalog_mono _ folders r hrC, fun _ => ?_⟩
    exact loop_marks ⟨C, [], 0, 0, n⟩ folders r f hrC hfol hf u v

/-- C2, witness: a concrete scan in which the surviving row's folder exists
and the stale row is pruned. -/
theorem C2_pruning_precision_witness :
    (∀ r ∈ [(⟨1, 5, "w/e/m"⟩ : AssetRow), ⟨2, 6, "w/e/gone"⟩],
      r.id ∉ (scanLoop ⟨[⟨1, 5, "w/e/m"⟩, ⟨2, 6, "w/e/gone"⟩], [], 0, 0, 3⟩
        [((5 : Int), "w/e/m")]).found →
      r ∉ (scan_mods_directory [⟨1, 5, "w/e/m"⟩, ⟨2, 6, "w/e/gone"⟩]
        [((5 : Int), "w/e/m")] 3).catalog) ∧
    (∀ r ∈ [(⟨1, 5, "w/e/m"⟩ : AssetRow), ⟨2, 6, "w/e/gone"⟩],
      (∀ f ∈ [((5 : Int), "w/e/m")], f.2 ≠ r.folder_name) →
      r ∉ (scan_mods_directory [⟨1, 5, "w/e/m"⟩, ⟨2, 6, "w/e/gone"⟩]
        [((5 : Int), "w/e/m")] 3).catalog) ∧
    (∀ r ∈ [(⟨1, 5, "w/e/m"⟩ : AssetRow), ⟨2, 6, "w/e/gone"⟩],
      (∃ f ∈ [((5 : Int), "w/e/m")], f.1 = r.entity_id ∧ f.2 = r.folder_name) →
      r ∈ (scan_mods_directory [⟨1, 5, "w/e/m"⟩, ⟨2, 6, "w/e/gone"⟩]
        [((5 : Int), "w/e/m")] 3).catalog) :=
  C2_pruning_precision [⟨1, 5, "w/e/m"⟩, ⟨2, 6, "w/e/gone"⟩]
    [((5 : Int), "w/e/m")] 3 (by decide) (by decide) (by decide)

theorem toLower_spec (c : Char) :
    Char.toLower c = c ∨
      (65 ≤ c.toNat ∧ c.toNat ≤ 90 ∧ (Char.toLower c).toNat = c.toNat + 32) := by
  unfold Char.toLower
  simp only []
  split
  · next h =>
    right
    refine ⟨h.1, h.2, ?_⟩
    have hv : (c.toNat + 32).isValidChar := Or.inl (by omega)
    rw [Char.ofNat, dif_pos hv]
    simp [Char.ofNatAux, Char.toNat, UInt32.toNat, BitVec.toNat_ofNatLt]
  · left; rfl

theorem char_toNat_inj {c d : Char} (h : c.toNat = d.toNat) : c = d := by
  apply Char.ext
  apply UInt32.ext
  exact h

theorem char_eq_toNat (c d : Char) : c = d ↔ c.toNat = d.toNat :=
  ⟨fun h => h ▸ rfl, char_toNat_inj⟩

theorem toLower_idem (c : Char) :
    Char.toLower (Char.toLower c) = Char.toLower c := by
  rcases toLower_spec c with h | ⟨h1, h2, h3⟩
  · rw [h]; exact h
  · rcases toLower_spec (Char.toLower c) with h4 | ⟨h4, h5, h6⟩
    · exact h4
    · omega

theorem toLower_eq_of_not_lower {c d : Char}
    (hd : ¬(97 ≤ d.toNat ∧ d.toNat ≤ 122)) (h : Char.toLower c = d) : c = d := by
  rcases toLower_spec c with h2 | ⟨h1, h2, h3⟩
  · rw [h2] at h; exact h
  · exfalso
    apply hd
    rw [← h]
    constructor <;> omega

theorem isWS_false_of_range {c : Char} (h1 : 65 ≤ c.toNat) (h2 : c.toNat ≤ 122) :
    isWS c = false := by
  cases hb : isWS c with
  | false => rfl
  | true =>
    exfalso
    unfold isWS at hb
    simp only [Bool.or_eq_true, Bool.and_eq_true, decide_eq_true_eq] at hb
    omega

theorem isWS_toLower (c : Char) : isWS (Char.toLower c) = isWS c := by
  rcases toLower_spec c with h | ⟨h1, h2, h3⟩
  · rw [h]
  · rw [isWS_false_of_range h1 (by omega),
        isWS_false_of_range (c := Char.toLower c) (by omega) (by omega)]

theorem isSep_false_of_range {c : Char} (h1 : 65 ≤ c.toNat) (h2 : c.toNat ≤ 122)
    (h3 : c.toNat ≠ 95) : isSepChar c = false := by
  cases hb : isSepChar c with
  | false => rfl
  | true =>
    exfalso
    unfold isSepChar at hb
    simp only [Bool.or_eq_true, decide_eq_true_eq] at hb
    rcases hb with ((h | h) | h) | h
    · rw [char_eq_toNat] at h
      rw [show Char.toNat '_' = 95 from rfl] at h
      omega
    · rw [char_eq_toNat] at h
      rw [show Char.toNat '-' = 45 from rfl] at h
      omega
    · rw [char_eq_toNat] at h
      rw [show Char.toNat '.' = 46 from rfl] at h
      omega
    · rw [isWS_false_of_range h1 h2] at h
      cases h

theorem isSep_toLower (c : Char) : isSepChar (Char.toLower c) = isSepChar c := by
  rcases toLower_spec c with h | ⟨h1, h2, h3⟩
  · rw [h]
  · rw [isSep_false_of_range h1 (by omega) (by omega),
        isSep_false_of_range (c := Char.toLower c) (by omega) (by omega) (by omega)]

theorem isAsciiAlpha_toLower (c : Char) :
    isAsciiAlpha (Char.toLower c) = isAsciiAlpha c := by
  rcases toLower_spec c with h | ⟨h1, h2, h3⟩
  · rw [h]
  · have ht : isAsciiAlpha c = true := by
      unfold isAsciiAlpha
      simp only [Bool.or_eq_true, Bool.and_eq_true, decide_eq_true_eq]
      omega
    have ht2 : isAsciiAlpha (Char.toLower c) = true := by
      unfold isAsciiAlpha
      simp only [Bool.or_eq_true, Bool.and_eq_true, decide_eq_true_eq]
      omega
    rw [ht, ht2]

theorem isNamePart_toLower (c : Char) :
    isNamePartChar (Char.toLower c) = isNamePartChar c := by
  unfold isNamePartChar
  rw [isAsciiAlpha_toLower, isWS_toLower]

theorem toLower_space_iff (c : Char) : Char.toLower c = ' ' ↔ c = ' ' := by
  constructor
  · exact toLower_eq_of_not_lower (by decide)
  · intro h
    rw [h]
    decide

theorem dropPrefixCI_length (pat : List Char) :
    ∀ (cs r : List Char), dropPrefixCI pat cs = some r → r.length ≤ cs.length := by
  induction pat with
  | nil =>
    intro cs r h
    simp only [dropPrefixCI] at h
    cases h
    exact Nat.le_refl _
  | cons p ps ih =>
    intro cs r h
    cases cs with
    | nil => simp [dropPrefixCI] at h
    | cons c rest =>
      simp only [dropPrefixCI] at h
      by_cases hc : Char.toLower p = Char.toLower c
      · rw [if_pos hc] at h
        exact Nat.le_trans (ih rest r h) (Nat.le_succ _)
      · rw [if_neg hc] at h
        cases h

theorem dropPrefixCI_length_lt (p : Char) (ps cs r : List Char)
    (h : dropPrefixCI (p :: ps) cs = some r) : r.length < cs.length := by
  cases cs with
  | nil => simp [dropPrefixCI] at h
  | cons c rest =>
    simp only [dropPrefixCI] at h
    by_cases hc : Char.toLower p = Char.toLower c
    · rw [if_pos hc] at h
      exact Nat.lt_succ_of_le (dropPrefixCI_length ps rest r h)
    · rw [if_neg hc] at h
      cases h

theorem dropPrefixCI_mem (pat : List Char) :
    ∀ (cs r : List Char), dropPrefixCI pat cs = some r →
      ∀ p ∈ pat, ∃ c ∈ cs, Char.toLower p = Char.toLower c := by
  induction pat with
  | nil => intro cs r h p hp; cases hp
  | cons q ps ih =>
    intro cs r h p hp
    cases cs with
    | nil => simp [dropPrefixCI] at h
    | cons c rest =>
      simp only [dropPrefixCI] at h
      by_cases hc : Char.toLower q = Char.toLower c
      · rw [if_pos hc] at h
        rcases List.mem_cons.mp hp with rfl | hp2
        · exact ⟨c, List.mem_cons_self _ _, hc⟩
        · obtain ⟨d, hd, he⟩ := ih rest r h p hp2
          exact ⟨d, List.mem_cons_of_mem _ hd, he⟩
      · rw [if_neg hc] at h
        cases h

theorem dropPrefixCI_disabled_none (cs : List Char)
    (h : ∀ c ∈ cs, c = ' ' ∨ isSepChar c = false) :
    dropPrefixCI "DISABLED_".data cs = none := by
  cases hd : dropPrefixCI "DISABLED_".data cs with
  | none => rfl
  | some r =>
    exfalso
    obtain ⟨c, hc, heq⟩ := dropPrefixCI_mem _ cs r hd '_' (by decide)
    have h2 : Char.toLower c = '_' := by
      rw [← heq]
      decide
    have h3 : c = '_' := toLower_eq_of_not_lower (by decide) h2
    subst h3
    rcases h _ hc with h4 | h4
    · exact absurd h4 (by decide)
    · exact absurd h4 (by decide)

theorem cleanupFuel_chars : ∀ (fuel : Nat) (b : Bool) (cs : List Char),
    cs.length ≤ fuel →
    ∀ c ∈ cleanupFuel fuel b cs, c = ' ' ∨ isSepChar c = false := by
  intro fuel
  induction fuel with
  | zero =>
    intro b cs hlen c hc
    rw [List.length_eq_zero.mp (Nat.le_zero.mp hlen)] at hc
    simp [cleanupFuel] at hc
  | succ n ih =>
    intro b cs hlen c hc
    cases cs with
    | nil => simp [cleanupFuel] at hc
    | cons a rest =>
      have hrest : rest.length ≤ n := by
        simp only [List.length_cons] at hlen
        omega
      simp only [cleanupFuel] at hc
      by_cases hsep : isSepChar a = true
      · rw [if_pos hsep] at hc
        rcases List.mem_cons.mp hc with rfl | h2
        · exact Or.inl rfl
        · exact ih false _
            (Nat.le_trans (List.Sublist.length_le (List.dropWhile_sublist _)) hrest) c h2
      · rw [if_neg hsep] at hc
        have ha : isSepChar a = false := Bool.not_eq_true _ ▸ hsep
        by_cases hpar : a = '('
        · rw [if_pos hpar] at hc
          cases hdp : dropPrefixCI "disabled)".data rest with
          | some rest2 =>
            rw [hdp] at hc
            rcases List.mem_cons.mp hc with rfl | h2
            · exact Or.inl rfl
            · exact ih false rest2
                (Nat.le_trans (dropPrefixCI_length _ rest rest2 hdp) hrest) c h2
          | none =>
            rw [hdp] at hc
            cases hli : lastIdxOf ')' (rest.takeWhile (fun x => x ≠ '\n')) with
            | some k =>
              rw [hli] at hc
              rcases List.mem_cons.mp hc with rfl | h2
              · exact Or.inl rfl
              · refine ih false _ ?_ c h2
                rw [List.length_drop]
                omega
            | none =>
              rw [hli] at hc
              rcases List.mem_cons.mp hc with rfl | h2
              · exact Or.inr ha
              · exact ih false rest hrest c h2
        · rw [if_neg hpar] at hc
          by_cases hbr : a = '['
          · rw [if_pos hbr] at hc
            cases hli : lastIdxOf ']' (rest.takeWhile (fun x => x ≠ '\n')) with
            | some k =>
              rw [hli] at hc
              rcases List.mem_cons.mp hc with rfl | h2
              · exact Or.inl rfl
              · refine ih false _ ?_ c h2
                rw [List.length_drop]
                omega
            | none =>
              rw [hli] at hc
              rcases List.mem_cons.mp hc with rfl | h2
              · exact Or.inr ha
              · exact ih false rest hrest c h2
          · rw [if_neg hbr] at hc
            by_cases hb : b = true
            · rw [if_pos hb] at hc
              cases hdp : dropPrefixCI "DISABLED_".data (a :: rest) with
              | some rest2 =>
                rw [hdp] at hc
                rcases List.mem_cons.mp hc with rfl | h2
                · exact Or.inl rfl
                · refine ih false rest2 ?_ c h2
                  have := dropPrefixCI_length_lt 'D' _ _ _ hdp
                  simp only [List.length_cons] at this
                  omega
              | none =>
                rw [hdp] at hc
                rcases List.mem_cons.mp hc with rfl | h2
                · exact Or.inr ha
                · exact ih false rest hrest c h2
            · rw [if_neg hb] at hc
              rcases List.mem_cons.mp hc with rfl | h2
              · exact Or.inr ha
              · exact ih false rest hrest c h2

theorem noDouble_tail {a : Char} {rest : List Char}
    (h : noDoubleSpace (a :: rest) = true) : noDoubleSpace rest = true := by
  cases rest with
  | nil => rfl
  | cons b t =>
    simp only [noDoubleSpace, Bool.and_eq_true] at h
    exact h.2

theorem noDouble_head {a b : Char} {t : List Char}
    (h : noDoubleSpace (a :: b :: t) = true) (ha : a = ' ') : b ≠ ' ' := by
  simp only [noDoubleSpace, Bool.and_eq_true] at h
  intro hb
  have h1 := h.1
  rw [ha, hb] at h1
  simp at h1

theorem cleanupFuel_id : ∀ (fuel : Nat) (b : Bool) (cs : List Char),
    cs.length ≤ fuel →
    (∀ c ∈ cs, (c = ' ' ∨ isSepChar c = false)) →
    (∀ c ∈ cs, c ≠ '(' ∧ c ≠ '[') →
    noDoubleSpace cs = true →
    cleanupFuel fuel b cs = cs := by
  intro fuel
  induction fuel with
  | zero => intro b cs _ _ _ _; rfl
  | succ n ih =>
    intro b cs hlen hgood hbr hnd
    cases cs with
    | nil => rfl
    | cons a rest =>
      have hrest : rest.length ≤ n := by
        simp only [List.length_cons] at hlen
        omega
      have htail : cleanupFuel n false rest = rest :=
        ih false rest hrest (fun c hc => hgood c (List.mem_cons_of_mem _ hc))
          (fun c hc => hbr c (List.mem_cons_of_mem _ hc)) (noDouble_tail hnd)
      simp only [cleanupFuel]
      by_cases hsep : isSepChar a = true
      · rw [if_pos hsep]
        have ha : a = ' ' := by
          rcases hgood a (List.mem_cons_self _ _) with h | h
          · exact h
          · rw [h] at hsep; cases hsep
        have hdw : rest.dropWhile isSepChar = rest := by
          cases rest with
          | nil => rfl
          | cons d t =>
            have hd : d ≠ ' ' := noDouble_head hnd ha
            have hds : isSepChar d = false := by
              rcases hgood d (List.mem_cons_of_mem _ (List.mem_cons_self _ _)) with h | h
              · exact absurd h hd
              · exact h
            rw [List.dropWhile_cons, if_neg (by simp [hds])]
        rw [hdw, ha, htail]
      · rw [if_neg hsep]
        rw [if_neg (hbr a (List.mem_cons_self _ _)).1]
        rw [if_neg (hbr a (List.mem_cons_self _ _)).2]
        by_cases hb : b = true
        · rw [if_pos hb]
          rw [dropPrefixCI_disabled_none (a :: rest) hgood]
          show a :: cleanupFuel n false rest = a :: rest
          rw [htail]
        · rw [if_neg hb]
          rw [htail]

theorem dropWhile_head_not (p : Char → Bool) :
    ∀ (l : List Char) (c : Char), (l.dropWhile p).head? = some c → p c = false := by
  intro l
  induction l with
  | nil => intro c h; cases h
  | cons a t ih =>
    intro c h
    by_cases hp : p a = true
    · rw [List.dropWhile_cons, if_pos hp] at h
      exact ih c h
    · rw [List.dropWhile_cons, if_neg hp] at h
      cases h
      exact Bool.not_eq_true _ ▸ hp

theorem trimL_eq_self (cs : List Char)
    (h : ∀ c, cs.head? = some c → isWS c = false) : trimL cs = cs := by
  unfold trimL
  cases cs with
  | nil => rfl
  | cons a t =>
    rw [List.dropWhile_cons, if_neg (by simp [h a rfl])]

theorem trimR_eq_self (cs : List Char)
    (h : ∀ c, cs.getLast? = some c → isWS c = false) : trimR cs = cs := by
  unfold trimR
  have hdw : cs.reverse.dropWhile isWS = cs.reverse := by
    cases hr : cs.reverse with
    | nil => rfl
    | cons a t =>
      have ha : cs.getLast? = some a := by
        rw [← List.head?_reverse, hr]
        rfl
      rw [List.dropWhile_cons, if_neg (by simp [h a ha])]
  rw [hdw, List.reverse_reverse]

theorem rustTrim_eq_self (cs : List Char)
    (hh : ∀ c, cs.head? = some c → isWS c = false)
    (hl : ∀ c, cs.getLast? = some c → isWS c = false) : rustTrim cs = cs := by
  unfold rustTrim
  rw [trimL_eq_self cs hh, trimR_eq_self cs hl]

theorem trimR_head (cs : List Char) (c : Char)
    (h : (trimR cs).head? = some c) : cs.head? = some c := by
  have hpre : trimR cs <+: cs := by
    unfold trimR
    conv_rhs => rw [← List.reverse_reverse cs]
    exact List.reverse_prefix.mpr (List.dropWhile_suffix isWS)
  obtain ⟨t, ht⟩ := hpre
  cases htr : trimR cs with
  | nil => rw [htr] at h; cases h
  | cons x xs =>
    rw [htr] at h ht
    cases h
    rw [← ht]
    rfl

theorem trimR_getLast (cs : List Char) (c : Char)
    (h : (trimR cs).getLast? = some c) : isWS c = false := by
  unfold trimR at h
  rw [List.getLast?_reverse] at h
  exact dropWhile_head_not isWS cs.reverse c h

theorem rustTrim_head (cs : List Char) (c : Char)
    (h : (rustTrim cs).head? = some c) : isWS c = false := by
  unfold rustTrim at h
  exact dropWhile_head_not isWS cs c (trimR_head _ c h)

theorem rustTrim_getLast (cs : List Char) (c : Char)
    (h : (rustTrim cs).getLast? = some c) : isWS c = false :=
  trimR_getLast _ c h

theorem mem_rustTrim (cs : List Char) (c : Char) (h : c ∈ rustTrim cs) :
    c ∈ cs := by
  unfold rustTrim trimR trimL at h
  rw [List.mem_reverse] at h
  have h2 := (List.dropWhile_sublist isWS).subset h
  rw [List.mem_reverse] at h2
  exact (List.dropWhile_sublist isWS).subset h2

theorem takeWhile_all (p : Char → Bool) :
    ∀ (l : List Char), (∀ a ∈ l, p a = true) → l.takeWhile p = l := by
  intro l
  induction l with
  | nil => intro _; rfl
  | cons a t ih =>
    intro h
    rw [List.takeWhile_cons, if_pos (h a (List.mem_cons_self _ _))]
    rw [ih (fun b hb => h b (List.mem_cons_of_mem _ hb))]

theorem map_toLower_idem (l : List Char) :
    (l.map Char.toLower).map Char.toLower = l.map Char.toLower := by
  rw [List.map_map]
  apply List.map_congr_left
  intro a _
  exact toLower_idem a

theorem cleanList_subset (cs : List Char) (c : Char) (h : c ∈ cleanList cs) :
    ∃ d ∈ nameCleanupAll cs, c = Char.toLower d := by
  unfold cleanList at h
  split at h
  · rw [List.mem_map] at h
    obtain ⟨d, hd, hdc⟩ := h
    exact ⟨d, mem_rustTrim _ _ hd, hdc.symm⟩
  · rw [List.mem_map] at h
    obtain ⟨d, hd, hdc⟩ := h
    have hd2 := mem_rustTrim _ _ hd
    have hd3 := (List.takeWhile_prefix isNamePartChar).subset hd2
    exact ⟨d, mem_rustTrim _ _ hd3, hdc.symm⟩

theorem cleanList_good (cs : List Char) (c : Char) (h : c ∈ cleanList cs) :
    c = ' ' ∨ isSepChar c = false := by
  obtain ⟨d, hd, rfl⟩ := cleanList_subset cs c h
  rcases cleanupFuel_chars cs.length true cs le_rfl d hd with h1 | h1
  · left; rw [h1]; decide
  · right; rw [isSep_toLower]; exact h1

theorem cleanList_lower (cs : List Char) :
    (cleanList cs).map Char.toLower = cleanList cs := by
  unfold cleanList
  split
  · exact map_toLower_idem _
  · exact map_toLower_idem _

theorem cleanList_head (cs : List Char) (c : Char)
    (h : (cleanList cs).head? = some c) : isWS c = false := by
  unfold cleanList at h
  split at h
  · rw [List.head?_map] at h
    cases hh : (rustTrim (nameCleanupAll cs)).head? with
    | none => rw [hh] at h; cases h
    | some d =>
      rw [hh] at h
      cases h
      rw [isWS_toLower]
      exact rustTrim_head _ d hh
  · rw [List.head?_map] at h
    cases hh :
        (rustTrim ((rustTrim (nameCleanupAll cs)).takeWhile
          isNamePartChar)).head? with
    | none => rw [hh] at h; cases h
    | some d =>
      rw [hh] at h
      cases h
      rw [isWS_toLower]
      exact rustTrim_head _ d hh

theorem cleanList_getLast (cs : List Char) (c : Char)
    (h : (cleanList cs).getLast? = some c) : isWS c = false := by
  unfold cleanList at h
  split at h
  · rw [List.getLast?_map] at h
    cases hh : (rustTrim (nameCleanupAll cs)).getLast? with
    | none => rw [hh] at h; cases h
    | some d =>
      rw [hh] at h
      cases h
      rw [isWS_toLower]
      exact rustTrim_getLast _ d hh
  · rw [List.getLast?_map] at h
    cases hh :
        (rustTrim ((rustTrim (nameCleanupAll cs)).takeWhile
          isNamePartChar)).getLast? with
    | none => rw [hh] at h; cases h
    | some d =>
      rw [hh] at h
      cases h
      rw [isWS_toLower]
      exact rustTrim_getLast _ d hh

theorem cleanList_takeWhile (cs : List Char) :
    (cleanList cs).takeWhile isNamePartChar = [] ∨
      (cleanList cs).takeWhile isNamePartChar = cleanList cs := by
  unfold cleanList
  split
  · next hc =>
    cases hX : rustTrim (nameCleanupAll cs) with
    | nil => right; rfl
    | cons d t =>
      left
      have hd : isNamePartChar d = false := by
        rw [hX, List.takeWhile_cons] at hc
        cases h2 : isNamePartChar d with
        | false => rfl
        | true => rw [if_pos h2] at hc; cases hc
      rw [List.map_cons, List.takeWhile_cons,
          if_neg (by rw [isNamePart_toLower, hd]; simp)]
  · right
    apply takeWhile_all
    intro a ha
    rw [List.mem_map] at ha
    obtain ⟨d, hd, rfl⟩ := ha
    rw [isNamePart_toLower]
    exact List.mem_takeWhile_imp (mem_rustTrim _ _ hd)

theorem cleanList_idem (cs : List Char)
    (hbr : noBracket (cleanList cs) = true)
    (hnd : noDoubleSpace (cleanList cs) = true) :
    cleanList (cleanList cs) = cleanList cs := by
  have hgood : ∀ c ∈ cleanList cs, c = ' ' ∨ isSepChar c = false :=
    fun c hc => cleanList_good cs c hc
  have hbr2 : ∀ c ∈ cleanList cs, c ≠ '(' ∧ c ≠ '[' := by
    intro c hc
    unfold noBracket at hbr
    rw [List.all_eq_true] at hbr
    have h3 := hbr c hc
    simp only [Bool.and_eq_true, decide_eq_true_eq] at h3
    exact ⟨h3.1.1.1, h3.1.2⟩
  have hclean : nameCleanupAll (cleanList cs) = cleanList cs :=
    cleanupFuel_id _ true _ le_rfl hgood hbr2 hnd
  have htrim : rustTrim (cleanList cs) = cleanList cs :=
    rustTrim_eq_self _ (fun c h => cleanList_head cs c h)
      (fun c h => cleanList_getLast cs c h)
  show (if (rustTrim (nameCleanupAll (cleanList cs))).takeWhile
          isNamePartChar = [] then
        (rustTrim (nameCleanupAll (cleanList cs))).map Char.toLower
      else
        (rustTrim ((rustTrim (nameCleanupAll (cleanList cs))).takeWhile
          isNamePartChar)).map Char.toLower) = cleanList cs
  rw [hclean, htrim]
  by_cases hcond : (cleanList cs).takeWhile isNamePartChar = []
  · rw [if_pos hcond]
    exact cleanList_lower cs
  · rw [if_neg hcond]
    rcases cleanList_takeWhile cs with h | h
    · exact absurd h hcond
    · rw [h, htrim]
      exact cleanList_lower cs

/-- C3 counterexample: `clean_and_extract_name` is not idempotent.  On
"a_(b)_c" the parenthesised group is replaced by a space between the spaces
produced by the two underscores, leaving a space run that only a second
pass collapses, so cleaning the cleaned string changes it. -/
theorem C3_counterexample :
    clean_and_extract_name (clean_and_extract_name "a_(b)_c") ≠
      clean_and_extract_name "a_(b)_c" := by
  decide

/-- C3 (amended): the name-cleaning function is idempotent on every string
whose cleaned form contains no parenthesis or square-bracket character and
no two adjacent spaces: for such an s,
clean_and_extract_name (clean_and_extract_name s) = clean_and_extract_name s.
The original universal claim fails, see the counterexample. -/
theorem C3_clean_idempotent (s : String)
    (hbr : noBracket (clean_and_extract_name s).data = true)
    (hnd : noDoubleSpace (clean_and_extract_name s).data = true) :
    clean_and_extract_name (clean_and_extract_name s) =
      clean_and_extract_name s :=
  congrArg String.mk (cleanList_idem s.data hbr hnd)

/-- Witness for C3: "Hello_World" cleans to "hello world", which is
bracket-free and double-space-free, and a second cleaning is a no-op. -/
theorem C3_clean_idempotent_witness :
    noBracket (clean_and_extract_name "Hello_World").data = true ∧
      noDoubleSpace (clean_and_extract_name "Hello_World").data = true ∧
      clean_and_extract_name (clean_and_extract_name "Hello_World") =
        clean_and_extract_name "Hello_World" :=
  ⟨by decide, by decide,
    C3_clean_idempotent "Hello_World" (by decide) (by decide)⟩

end GMM
